import Mathlib

set_option allowUnsafeReducibility true
attribute [local semireducible] Rat.add Rat.sub Rat.mul Rat.inv Rat.div

/-!
Verification of the `mimesis` image-to-mesh library.

Shallow embedding of the library sources (`src/binary_image.rs`,
`src/error.rs`, `src/mesh.rs`, `src/contour.rs`) and proofs about the
spec's claims.  `f64` values are modelled as `ℚ` (all arithmetic in the
verified paths is exact on the inputs considered), `u32`/`usize` as `ℕ`,
`i8`/`i32` as `ℤ`.  A Rust function that can panic is modelled with
`Option`, `none` standing for abnormal termination.
-/

namespace Mimesis

/-! ## `src/error.rs`

```rust
pub enum Error { InvalidBoundingBox, NotEnoughPoints, TriangulationFailed, Custom(String) }
```
Note the enum has exactly these four variants; in particular there is no
`InvalidDimensions` variant anywhere in the crate. -/

inductive Error where
  | InvalidBoundingBox : Error
  | NotEnoughPoints : Error
  | TriangulationFailed : Error
  | Custom : String → Error
deriving DecidableEq

/-! ## `src/binary_image.rs` -/

/-- `BinaryImage { width, height, buffer: BitVec }`: the packed mask.
The bit at `(x, y)` is `buffer[y * width + x]`. -/
structure BinaryImage where
  width : ℕ
  height : ℕ
  buffer : List Bool
deriving DecidableEq

/-- `GenericImageView::get_pixel`: reads bit `y * width + x`.  Out-of-range
reads (undefined behaviour in release Rust) are modelled as `false`. -/
def BinaryImage.get_pixel (img : BinaryImage) (x y : ℕ) : Bool :=
  img.buffer.getD (y * img.width + x) false

/-- Helper for `slice::chunks`: splits the list into consecutive chunks of
size `k + 1`, the last chunk possibly shorter.  The extra `ℕ` argument is
structural-recursion fuel; it is irrelevant as long as it is at least the
list length (`rustChunks` passes exactly the length). -/
def chunksF (k : ℕ) : ℕ → List α → List (List α)
  | _, [] => []
  | 0, l => [l]
  | fuel + 1, x :: xs => (x :: xs.take k) :: chunksF k fuel (xs.drop k)

/-- Rust `buffer.chunks(step)` for `step ≥ 1` (with `step = 0` the Rust
call panics; `from_raw` models that case as `none` before reaching here). -/
def rustChunks (step : ℕ) (l : List α) : List (List α) :=
  chunksF (step - 1) l.length l

/-- `BinaryImage::from_raw(width, height, buffer)`:

```rust
let image_size = (width * height) as usize;
debug_assert!(buffer.len() >= image_size, ...);
let compress_step = buffer.len() / image_size;
Self { buffer: buffer.chunks(compress_step)
         .map(|pixel| !pixel.iter().any(Zero::is_zero)).collect(), height, width }
```

A buffer shorter than `width * height` trips the `debug_assert` (debug
builds) and makes `compress_step = 0`, so `chunks(0)` panics (release
builds); `width * height = 0` makes `buffer.len() / image_size` a
division by zero, which panics.  Both abnormal outcomes are `none`.
Bytes are modelled as `ℕ`, `Zero::is_zero` as `· == 0`. -/
def from_raw (width height : ℕ) (buffer : List ℕ) : Option BinaryImage :=
  if buffer.length < width * height ∨ width * height = 0 then none
  else
    some { width := width, height := height,
           buffer := (rustChunks (buffer.length / (width * height)) buffer).map
             (fun pixel => !pixel.any (· == 0)) }

end Mimesis

namespace Mimesis

/-! Section: `src/mesh.rs` -/

/-- Structure `Mesh2D { vertices: Vec<[f64; 2]>, indices: Vec<usize> }`. -/
structure Mesh2D where
  vertices : List (ℚ × ℚ)
  indices : List ℕ
deriving DecidableEq

/-- Structure `MeshGroup { indices: Vec<[usize; 3]>, name: &'static str }`. -/
structure MeshGroup where
  indices : List (ℕ × ℕ × ℕ)
  name : String
deriving DecidableEq

/-- Structure `Mesh3D { vertices: Vec<[f64; 3]>, uvs: Vec<[f64; 2]>, faces: Vec<MeshGroup> }`. -/
structure Mesh3D where
  vertices : List (ℚ × ℚ × ℚ)
  uvs : List (ℚ × ℚ)
  faces : List MeshGroup
deriving DecidableEq

/-- One `writeln!` payload of `Mesh3D::export_mtl`.  The scalar lines carry
the literal numbers the source prints ("Kd 1.0 1.0 1.0", "d 1.0", …); a
`writeln!` whose text begins with `\n` is modelled as a `blank` line
followed by the line proper. -/
inductive MtlLine where
  | newmtl : String → MtlLine
  | ka : ℚ → ℚ → ℚ → MtlLine
  | kd : ℚ → ℚ → ℚ → MtlLine
  | ks : ℚ → ℚ → ℚ → MtlLine
  | d : ℚ → MtlLine
  | ns : ℚ → MtlLine
  | illum : ℕ → MtlLine
  | mapKd : String → MtlLine
  | blank : MtlLine
deriving DecidableEq

/-- Function `Mesh3D::export_mtl(path, front_texture, back_texture,
side_texture)`: the sequence of lines written to the MTL file, in source
order (the file-system side of the write is not modelled). -/
def export_mtl (front_texture back_texture side_texture : String) : List MtlLine :=
  [ MtlLine.newmtl "front",
    MtlLine.ka 1 1 1,
    MtlLine.kd 1 1 1,
    MtlLine.ks 0 0 0,
    MtlLine.d 1,
    MtlLine.ns 10,
    MtlLine.illum 2,
    MtlLine.mapKd front_texture,
    MtlLine.blank,
    MtlLine.newmtl "back",
    MtlLine.ka 1 1 1,
    MtlLine.kd 1 1 1,
    MtlLine.ks 0 0 0,
    MtlLine.d 1,
    MtlLine.ns 10,
    MtlLine.illum 2,
    MtlLine.mapKd back_texture,
    MtlLine.blank,
    MtlLine.newmtl "side",
    MtlLine.ka 1 1 1,
    MtlLine.kd 1 1 1,
    MtlLine.ks 0 0 0,
    MtlLine.d 1,
    MtlLine.ns 10,
    MtlLine.illum 2,
    MtlLine.mapKd side_texture ]

/-- Names carried by the `newmtl` lines, in file order. -/
def newmtlNames (ls : List MtlLine) : List String :=
  ls.filterMap fun l =>
    match l with
    | MtlLine.newmtl n => some n
    | _ => none

/-- Paths carried by the `map_Kd` lines, in file order. -/
def mapKdPaths (ls : List MtlLine) : List String :=
  ls.filterMap fun l =>
    match l with
    | MtlLine.mapKd p => some p
    | _ => none

/-- A full material block as the spec describes one: `newmtl name` with
ambient/diffuse `(1,1,1)`, specular `(0,0,0)`, `d 1.0`, `Ns 10.0`,
`illum 2` and `map_Kd tex`. -/
def mtlBlock (name tex : String) : List MtlLine :=
  [ MtlLine.newmtl name,
    MtlLine.ka 1 1 1,
    MtlLine.kd 1 1 1,
    MtlLine.ks 0 0 0,
    MtlLine.d 1,
    MtlLine.ns 10,
    MtlLine.illum 2,
    MtlLine.mapKd tex ]

/-! Section: `Mesh2D::extrude` -/

/-- Iteration `for triangle in self.indices.chunks(3)` reading
`triangle[0..3]`: the full 3-chunks of the index list.  On a list whose
length is not a multiple of 3 the Rust code panics at `triangle[1]` of the
ragged tail; theorems about the triangle loops therefore carry the
`Mesh2D` invariant `3 ∣ indices.length`, under which this definition is
exact. -/
def triangles : List ℕ → List (ℕ × ℕ × ℕ)
  | i0 :: i1 :: i2 :: rest => (i0, i1, i2) :: triangles rest
  | _ => []

/-- Fold `self.vertices.iter().map(|v| v[0]).fold(INFINITY, min)`: the
least x-coordinate, seeded from the first vertex (the `INFINITY` seed is
read only for an empty vertex list, where the source's value is never
used downstream; `0` stands in for it). -/
def minX (m : Mesh2D) : ℚ :=
  match m.vertices with
  | [] => 0
  | v :: vs => vs.foldl (fun a p => min a p.1) v.1

/-- Greatest x-coordinate (see `minX`). -/
def maxX (m : Mesh2D) : ℚ :=
  match m.vertices with
  | [] => 0
  | v :: vs => vs.foldl (fun a p => max a p.1) v.1

/-- Least y-coordinate (see `minX`). -/
def minY (m : Mesh2D) : ℚ :=
  match m.vertices with
  | [] => 0
  | v :: vs => vs.foldl (fun a p => min a p.2) v.2

/-- Greatest y-coordinate (see `minX`). -/
def maxY (m : Mesh2D) : ℚ :=
  match m.vertices with
  | [] => 0
  | v :: vs => vs.foldl (fun a p => max a p.2) v.2

/-- Constant `f64::EPSILON = 2^-52`. -/
def epsQ : ℚ := 1 / 2 ^ 52

/-- Binding `dx = if (max_x - min_x).abs() < f64::EPSILON { 1.0 } else { max_x - min_x }`. -/
def dxBB (m : Mesh2D) : ℚ :=
  if |maxX m - minX m| < epsQ then 1 else maxX m - minX m

/-- Binding `dy`, as `dxBB`. -/
def dyBB (m : Mesh2D) : ℚ :=
  if |maxY m - minY m| < epsQ then 1 else maxY m - minY m

/-- Edge key `if i0 < i1 { (i0, i1) } else { (i1, i0) }`. -/
def normEdge (i j : ℕ) : ℕ × ℕ :=
  if i < j then (i, j) else (j, i)

/-- The normalized edges of all triangles, one entry per edge occurrence
(the multiset the source accumulates into `edge_count: HashMap<_, i32>`). -/
def allEdges : List (ℕ × ℕ × ℕ) → List (ℕ × ℕ)
  | [] => []
  | t :: ts => normEdge t.1 t.2.1 :: normEdge t.2.1 t.2.2 :: normEdge t.2.2 t.1 :: allEdges ts

/-- Filter `edge_count.iter().filter(count == 1)`: the distinct normalized
edges occurring exactly once.  `dedup` fixes one concrete enumeration
order standing in for the `HashMap` iteration order, which Rust leaves
unspecified (and randomizes per process); `extrudeWith` is therefore
parameterized over an arbitrary permutation of this list. -/
def boundaryEdges (m : Mesh2D) : List (ℕ × ℕ) :=
  let es := allEdges (triangles m.indices)
  es.dedup.filter fun e => es.count e == 1

/-- Sort key of `boundary_edges.sort_by_key(|&(i0, i1)| i0.min(i1))`: after
normalization `min(i0, i1)` is the first component. -/
def edgeKeyLe (a b : ℕ × ℕ) : Prop := a.1 ≤ b.1

instance : DecidableRel edgeKeyLe := fun a b => Nat.decLe a.1 b.1

/-- Strict version of the sort key, used to state when the sorted order is
unique. -/
def edgeKeyLt (a b : ℕ × ℕ) : Prop := a.1 < b.1

/-- Call `boundary_edges.sort_by_key(|&(i0, i1)| i0.min(i1))`.  Rust's
`sort_by_key` is a stable sort, and any two stable sorts by the same key
agree on every input, so insertion sort models it exactly. -/
def sortEdges (l : List (ℕ × ℕ)) : List (ℕ × ℕ) :=
  List.insertionSort edgeKeyLe l

/-- Loop `for &(i0, i1) in &boundary_edges { … }` of `extrude`: emits, per
boundary edge, the four side-quad vertices (two at `z = 0`, two at
`z = depth`), their UVs (`v = 0` on the `z = 0` pair, `v = 1` on the
`z = depth` pair, `u` by accumulated arc length over the total perimeter)
and the quad's two triangles.  `lenF` models the `f64` edge length
`((p1[0]-p0[0])^2 + (p1[1]-p0[1])^2).sqrt()`; it is kept abstract because
square roots leave `ℚ`, and no claim depends on its values.  `curU` is the
running `current_u`, `base` the running `vertices.len()`. -/
def sideEmit (lenF : (ℚ × ℚ) → (ℚ × ℚ) → ℚ) (verts : List (ℚ × ℚ)) (total depth : ℚ) :
    List (ℕ × ℕ) → ℚ → ℕ → List (ℚ × ℚ × ℚ) × List (ℚ × ℚ) × List (ℕ × ℕ × ℕ)
  | [], _, _ => ([], [], [])
  | (i0, i1) :: es, curU, base =>
    let p0 := verts.getD i0 (0, 0)
    let p1 := verts.getD i1 (0, 0)
    let l := lenF p0 p1
    let u0 := curU / total
    let u1 := (curU + l) / total
    let rest := sideEmit lenF verts total depth es (curU + l) (base + 4)
    ([(p0.1, p0.2, 0), (p1.1, p1.2, 0), (p1.1, p1.2, depth), (p0.1, p0.2, depth)] ++ rest.1,
     [(u0, 0), (u1, 0), (u1, 1), (u0, 1)] ++ rest.2.1,
     [(base, base + 1, base + 2), (base, base + 2, base + 3)] ++ rest.2.2)

/-- Loop pushing the front-face vertices `[*x, *y, 0.0]`. -/
def frontVerts (m : Mesh2D) : List (ℚ × ℚ × ℚ) :=
  m.vertices.map fun p => (p.1, p.2, 0)

/-- Loop pushing the back-face vertices `[*x, *y, depth]`. -/
def backVerts (m : Mesh2D) (depth : ℚ) : List (ℚ × ℚ × ℚ) :=
  m.vertices.map fun p => (p.1, p.2, depth)

/-- UV pushed for each front vertex (and again for each back vertex):
`[(*x - min_x) / dx, (*y - min_y) / dy]`. -/
def fbUV (m : Mesh2D) : List (ℚ × ℚ) :=
  m.vertices.map fun p => ((p.1 - minX m) / dxBB m, (p.2 - minY m) / dyBB m)

/-- Length of one boundary edge:
`((p1[0]-p0[0]).powi(2) + (p1[1]-p0[1]).powi(2)).sqrt()` through the
abstract `lenF` (see `sideEmit`). -/
def edgeLen (lenF : (ℚ × ℚ) → (ℚ × ℚ) → ℚ) (m : Mesh2D) (e : ℕ × ℕ) : ℚ :=
  lenF (m.vertices.getD e.1 (0, 0)) (m.vertices.getD e.2 (0, 0))

/-- Binding `total_perimeter`: the sum of the boundary-edge lengths. -/
def totalPerimeter (lenF : (ℚ × ℚ) → (ℚ × ℚ) → ℚ) (m : Mesh2D)
    (edges : List (ℕ × ℕ)) : ℚ :=
  ((sortEdges edges).map (edgeLen lenF m)).sum

/-- The side-face emission of `extrude` over the sorted boundary edges,
starting at `current_u = 0.0` and `vertex_offset = 2n`. -/
def sideOf (lenF : (ℚ × ℚ) → (ℚ × ℚ) → ℚ) (m : Mesh2D) (depth : ℚ)
    (edges : List (ℕ × ℕ)) : List (ℚ × ℚ × ℚ) × List (ℚ × ℚ) × List (ℕ × ℕ × ℕ) :=
  sideEmit lenF m.vertices (totalPerimeter lenF m edges) depth
    (sortEdges edges) 0 (2 * m.vertices.length)

/-- Body of `Mesh2D::extrude(depth)`, parameterized over the boundary-edge
list as collected from the hash map (any permutation of
`boundaryEdges m`); the source then sorts it by `min(i0, i1)` and emits

* `n` front vertices `(x, y, 0)` and `n` back vertices `(x, y, depth)`,
  both with UV `((x - min_x)/dx, (y - min_y)/dy)`;
* per 2D triangle `(i0,i1,i2)` the face `(i2+n, i1+n, i0+n)` into group
  "front" and `(i0,i1,i2)` into group "back";
* per boundary edge a four-vertex side quad (see `sideEmit`), group "side".

Vertex lookups `self.vertices[i]` are modelled with `getD` (the source
panics when a triangle index is out of range; the `Mesh2D` invariant says
all indices are in range). -/
def extrudeWith (edges : List (ℕ × ℕ)) (lenF : (ℚ × ℚ) → (ℚ × ℚ) → ℚ)
    (m : Mesh2D) (depth : ℚ) : Mesh3D :=
  { vertices := frontVerts m ++ (backVerts m depth ++ (sideOf lenF m depth edges).1),
    uvs := fbUV m ++ (fbUV m ++ (sideOf lenF m depth edges).2.1),
    faces := [ ⟨(triangles m.indices).map fun t =>
                 (t.2.2 + m.vertices.length, t.2.1 + m.vertices.length,
                  t.1 + m.vertices.length), "front"⟩,
               ⟨triangles m.indices, "back"⟩,
               ⟨(sideOf lenF m depth edges).2.2, "side"⟩ ] }

/-- Function `Mesh2D::extrude(depth)`: `extrudeWith` at the canonical
enumeration of the boundary edges. -/
def extrude (lenF : (ℚ × ℚ) → (ℚ × ℚ) → ℚ) (m : Mesh2D) (depth : ℚ) : Mesh3D :=
  extrudeWith (boundaryEdges m) lenF m depth

/-- Exact square root on `ℚ`: the rational square root when one exists,
`0` otherwise.  Used to instantiate `lenF` on concrete meshes all of whose
boundary edges have rational Euclidean lengths, where it coincides with
the source's `f64` `sqrt`. -/
def ratSqrt (q : ℚ) : ℚ :=
  if q.num < 0 then 0
  else
    if (Nat.sqrt q.num.toNat) ^ 2 = q.num.toNat ∧ (Nat.sqrt q.den) ^ 2 = q.den then
      (Nat.sqrt q.num.toNat : ℚ) / (Nat.sqrt q.den : ℚ)
    else 0

/-- Edge length `((p1[0]-p0[0]).powi(2) + (p1[1]-p0[1]).powi(2)).sqrt()`
via `ratSqrt`. -/
def euclidLen (p0 p1 : ℚ × ℚ) : ℚ :=
  ratSqrt ((p1.1 - p0.1) ^ 2 + (p1.2 - p0.2) ^ 2)

/-- Unit-square test mesh: vertices `(0,0), (1,0), (1,1), (0,1)`,
triangles `(0,1,2)` and `(0,2,3)`; every boundary edge has length 1, so
`euclidLen` is exact on it. -/
def sqMesh : Mesh2D :=
  { vertices := [(0, 0), (1, 0), (1, 1), (0, 1)], indices := [0, 1, 2, 0, 2, 3] }

instance : IsTotal (ℕ × ℕ) edgeKeyLe := ⟨fun a b => Nat.le_total a.1 b.1⟩

instance : IsTrans (ℕ × ℕ) edgeKeyLe := ⟨fun _ _ _ h1 h2 => Nat.le_trans h1 h2⟩

end Mimesis

namespace Mimesis

/-! Section: `src/contour.rs` -/

/-- Table `O_VERTEX_WITH_BORDER`: bottom-left corner offsets, per
orientation, for exterior traces. -/
def O_VERTEX_WITH_BORDER : List (ℤ × ℤ) :=
  [(-1, 0), (0, 0), (-1, -1), (0, 0), (0, -1), (0, 0), (0, 0)]

/-- Table `H_VERTEX_WITH_BORDER`: bottom-right corner offsets for hole
traces. -/
def H_VERTEX_WITH_BORDER : List (ℤ × ℤ) :=
  [(0, 0), (0, 0), (-1, 0), (0, 0), (-1, -1), (0, 0), (0, -1)]

/-- Table `O_VALUE_FOR_SIGNED`: contour markers for exterior traces. -/
def O_VALUE_FOR_SIGNED : List ℤ := [1, 0, 2, 0, 4, 0, 8]

/-- Table `H_VALUE_FOR_SIGNED`: contour markers for hole traces. -/
def H_VALUE_FOR_SIGNED : List ℤ := [-4, 0, -8, 0, -1, 0, -2]

/-- Table `MN`: the Moore neighborhood displacements. -/
def MN : List (ℤ × ℤ) :=
  [(0, -1), (1, -1), (1, 0), (1, 1), (0, 1), (-1, 1), (-1, 0), (-1, -1)]

/-- Read `contours[y][x]` (out-of-range reads yield the border value 0,
matching the zero border the algorithm relies on). -/
def gridGet (c : List (List ℤ)) (y x : ℕ) : ℤ :=
  (c.getD y []).getD x 0

/-- Statement `contours[y][x] += v`. -/
def gridAdd (c : List (List ℤ)) (y x : ℕ) (v : ℤ) : List (List ℤ) :=
  c.set y ((c.getD y []).set x (gridGet c y x + v))

/-- Cast-and-wrapping-add `tracer.wrapping_add(MN[…].0 as usize)`: adds a
signed displacement to an unsigned coordinate.  A negative result would
wrap to a huge index in Rust and panic at the next grid access; the
tracer stays inside the padded grid, and `toNat` clamps at 0. -/
def moveBy (t : ℕ) (d : ℤ) : ℕ :=
  ((t : ℤ) + d).toNat

/-- Vertex pushed on the ring:
`(tracer as f64) + (vertex[o[0]] as f64)`, componentwise. -/
def ringCoord (vertex : List (ℤ × ℤ)) (o : List ℕ) (tx ty : ℕ) : ℚ × ℚ :=
  ((tx : ℚ) + ((vertex.getD (o.getD 0 0) (0, 0)).1 : ℚ),
   (ty : ℚ) + ((vertex.getD (o.getD 0 0) (0, 0)).2 : ℚ))

/-- The eight bounds-checked neighbour reads of `trace_polygon`, in source
order 0–7. -/
def neighborsOf (c : List (List ℤ)) (ty tx : ℕ) : List ℤ :=
  let rows := c.length
  let cols := (c.getD 0 []).length
  [ if ty > 0 then gridGet c (ty - 1) tx else 0,
    if ty > 0 ∧ tx < cols - 1 then gridGet c (ty - 1) (tx + 1) else 0,
    if tx < cols - 1 then gridGet c ty (tx + 1) else 0,
    if ty < rows - 1 ∧ tx < cols - 1 then gridGet c (ty + 1) (tx + 1) else 0,
    if ty < rows - 1 then gridGet c (ty + 1) tx else 0,
    if ty < rows - 1 ∧ tx > 0 then gridGet c (ty + 1) (tx - 1) else 0,
    if tx > 0 then gridGet c ty (tx - 1) else 0,
    if ty > 0 ∧ tx > 0 then gridGet c (ty - 1) (tx - 1) else 0 ]

/-- Rotation amount `rot.rem_euclid(8)` (`2` for outlines, `6` — i.e. a
right-rotation by 2 — for holes). -/
def rotAmt (rot : ℤ) : ℕ :=
  (rot % 8).toNat

/-- State of the `trace_polygon` loop: tracer position, `vertices_nbr`,
the ring accumulated so far, the orientation array `o` and the contour
grid. -/
structure TraceState where
  tx : ℕ
  ty : ℕ
  verticesNbr : ℕ
  ring : List (ℚ × ℚ)
  o : List ℕ
  grid : List (List ℤ)
deriving DecidableEq

/-- One iteration of the main `loop` of `trace_polygon` up to (and
including) the `match rn` block: computes the neighbours, classifies
`rn`, applies the grid marker, the tracer move, the rotation, the
`vertices_nbr` bumps and (for `rn = 3`) the mid-step ring push.  Returns
the new state together with `rn`. -/
def traceIter (outline : Bool) (rot : ℤ) (viv : ℕ × ℕ × ℕ)
    (vertex : List (ℤ × ℤ)) (value : List ℤ) (st : TraceState) : TraceState × ℕ :=
  let nb := neighborsOf st.grid st.ty st.tx
  let o := st.o
  let nbAt := fun k : ℕ => nb.getD (o.getD k 0) 0
  let rn : ℕ :=
    if outline then
      if nbAt 7 > 0 ∧ nbAt 0 > 0 then 1
      else if nbAt 0 > 0 then 2
      else if nbAt 1 > 0 ∧ nbAt 2 > 0 then 3
      else 0
    else
      if nbAt 1 < 0 ∧ nbAt 0 < 0 then 1
      else if nbAt 0 < 0 then 2
      else if nbAt 7 < 0 ∧ nbAt 6 < 0 then 3
      else 0
  if rn = 1 then
    let g := gridAdd st.grid st.ty st.tx (value.getD (o.getD 0 0) 0)
    let mv := MN.getD (o.getD viv.1 0) (0, 0)
    ({ st with grid := g, tx := moveBy st.tx mv.1, ty := moveBy st.ty mv.2,
               o := o.rotateRight (rotAmt rot),
               verticesNbr := st.verticesNbr + 1 }, 1)
  else if rn = 2 then
    let g := gridAdd st.grid st.ty st.tx (value.getD (o.getD 0 0) 0)
    let mv := MN.getD (o.getD 0 0) (0, 0)
    ({ st with grid := g, tx := moveBy st.tx mv.1, ty := moveBy st.ty mv.2 }, 2)
  else if rn = 3 then
    let g1 := gridAdd st.grid st.ty st.tx (value.getD (o.getD 0 0) 0)
    let oL := o.rotateLeft (rotAmt rot)
    let g2 := gridAdd g1 st.ty st.tx (value.getD (oL.getD 0 0) 0)
    let mv := MN.getD (o.getD viv.2.1 0) (0, 0)
    ({ st with grid := g2,
               ring := st.ring ++ [ringCoord vertex oL st.tx st.ty],
               tx := moveBy st.tx mv.1, ty := moveBy st.ty mv.2,
               verticesNbr := st.verticesNbr + 2 }, 3)
  else
    let g := gridAdd st.grid st.ty st.tx (value.getD (o.getD 0 0) 0)
    ({ st with grid := g, o := o.rotateLeft (rotAmt rot),
               verticesNbr := st.verticesNbr + 1 }, 0)

/-- The main `loop` of `trace_polygon`: iterate `traceIter`, break when
the tracer is back at the start with more than two vertices, otherwise
push the current corner when `rn != 2` and continue.  `fuel` bounds the
iteration count (the source loop terminates by returning to the start;
`trace_polygon` passes a bound larger than any possible trace). -/
def traceLoop (outline : Bool) (rot : ℤ) (viv : ℕ × ℕ × ℕ)
    (vertex : List (ℤ × ℤ)) (value : List ℤ) (cx cy : ℕ) :
    ℕ → TraceState → TraceState
  | 0, st => st
  | fuel + 1, st =>
    let sr := traceIter outline rot viv vertex value st
    if sr.1.tx = cx ∧ sr.1.ty = cy ∧ sr.1.verticesNbr > 2 then sr.1
    else
      traceLoop outline rot viv vertex value cx cy fuel
        (if sr.2 ≠ 2 then
          { sr.1 with ring := sr.1.ring ++ [ringCoord vertex sr.1.o sr.1.tx sr.1.ty] }
        else sr.1)

/-- The final cleanup `loop` of `trace_polygon`: add the marker, stop
when `o[0]` reaches `viv.2`, else rotate left, bump `vertices_nbr` and
push the corner.  Rotation cycles through at most four orientations, so
fuel 8 always suffices. -/
def traceCleanup (rot : ℤ) (viv2 : ℕ) (vertex : List (ℤ × ℤ)) (value : List ℤ) :
    ℕ → TraceState → TraceState
  | 0, st => st
  | fuel + 1, st =>
    let g := gridAdd st.grid st.ty st.tx (value.getD (st.o.getD 0 0) 0)
    if st.o.getD 0 0 = viv2 then { st with grid := g }
    else
      traceCleanup rot viv2 vertex value fuel
        { st with grid := g, o := st.o.rotateLeft (rotAmt rot),
                  verticesNbr := st.verticesNbr + 1,
                  ring := st.ring ++ [ringCoord vertex (st.o.rotateLeft (rotAmt rot)) st.tx st.ty] }

/-- Function `BinaryImage::trace_polygon(outline, cursor_x, cursor_y, o,
rot, viv, vertex, value, contours)`: traces one ring from `(cx, cy)`,
returning the ring and the mutated contour grid. -/
def trace_polygon (outline : Bool) (cx cy : ℕ) (o0 : List ℕ) (rot : ℤ)
    (viv : ℕ × ℕ × ℕ) (vertex : List (ℤ × ℤ)) (value : List ℤ)
    (grid : List (List ℤ)) : List (ℚ × ℚ) × List (List ℤ) :=
  let st0 : TraceState :=
    { tx := cx, ty := cy, verticesNbr := 1,
      ring := [ringCoord vertex o0 cx cy], o := o0, grid := grid }
  let fuel := 8 * (grid.length + 2) * ((grid.getD 0 []).length + 2) + 64
  let st1 := traceLoop outline rot viv vertex value cx cy fuel st0
  let st2 := traceCleanup rot viv.2.2 vertex value 8 st1
  (st2.ring, st2.grid)

/-- A traced polygon: `geo::Polygon` restricted to what the crate uses —
an exterior ring and a list of interior rings, coordinates in `ℚ`. -/
structure PolyQ where
  exterior : List (ℚ × ℚ)
  interiors : List (List (ℚ × ℚ))
deriving DecidableEq

/-- Ring closure performed by `geo`'s `Polygon::new` and
`interiors_push`: when the first and last coordinates differ, the first
is appended; an empty ring and an already-closed ring are unchanged. -/
def closeRing (ring : List (ℚ × ℚ)) : List (ℚ × ℚ) :=
  match ring.head? with
  | none => ring
  | some p => if ring.getLast? = some p then ring else ring ++ [p]

/-- Method `interiors_push`: closes the ring and appends it. -/
def interiorsPush (poly : PolyQ) (ring : List (ℚ × ℚ)) : PolyQ :=
  { poly with interiors := poly.interiors ++ [closeRing ring] }

/-- Helper `point_in_polygon(point, polygon)`: even-odd ray casting over
the polygon's coordinates, exactly as the source loop (`j` is the
previous index, starting at `n - 1`; fewer than three coordinates give
`false`).  The division is exact in `ℚ`; its guard makes the denominator
non-zero whenever the division is reached. -/
def point_in_polygon (p : ℚ × ℚ) (poly : List (ℚ × ℚ)) : Bool :=
  let n := poly.length
  if n < 3 then false
  else
    (List.range n).foldl
      (fun inside i =>
        let j := if i = 0 then n - 1 else i - 1
        let ci := poly.getD i (0, 0)
        let cj := poly.getD j (0, 0)
        if (decide (ci.2 > p.2) != decide (cj.2 > p.2)) &&
            decide (p.1 < (cj.1 - ci.1) * (p.2 - ci.2) / (cj.2 - ci.2) + ci.1)
        then !inside else inside)
      false

/-- Helper `polygon_contains_ring(exterior, inner_ring)`: point-in-polygon
test on the inner ring's first coordinate; an empty ring gives `false`. -/
def polygon_contains_ring (exterior : List (ℚ × ℚ)) (inner_ring : List (ℚ × ℚ)) : Bool :=
  match inner_ring.head? with
  | some test_point => point_in_polygon test_point exterior
  | none => false

/-- Helper `calculate_polygon_area(polygon)`: absolute shoelace area
`|Σ (x_j + x_i)(y_j − y_i)| / 2`, `0` for fewer than three
coordinates. -/
def calculate_polygon_area (poly : List (ℚ × ℚ)) : ℚ :=
  let n := poly.length
  if n < 3 then 0
  else
    |(List.range n).foldl
      (fun area i =>
        let j := if i = 0 then n - 1 else i - 1
        area + ((poly.getD j (0, 0)).1 + (poly.getD i (0, 0)).1) *
          ((poly.getD j (0, 0)).2 - (poly.getD i (0, 0)).2))
      0| / 2

/-- Accumulator update of the best-polygon search: keep the incumbent
unless the candidate area is strictly smaller (`area < best_area`, with
`best_area` starting at `f64::INFINITY`, modelled by `none`). -/
def updateBest (idx : ℕ) (area : ℚ) : Option (ℕ × ℚ) → Option (ℕ × ℚ)
  | none => some (idx, area)
  | some ba => if area < ba.2 then some (idx, area) else some ba

/-- Loop `for (idx, polygon) in polygons.iter().enumerate()` of the hole
assignment: scan the polygons, keeping the index and area of the
smallest-area polygon whose exterior contains the ring's representative
point. -/
def bestGo (r : List (ℚ × ℚ)) : List PolyQ → ℕ → Option (ℕ × ℚ) → Option (ℕ × ℚ)
  | [], _, best => best
  | p :: ps, idx, best =>
    bestGo r ps (idx + 1)
      (if polygon_contains_ring p.exterior r then
        updateBest idx (calculate_polygon_area p.exterior) best
      else best)

/-- Binding `best_polygon_idx` after the scan. -/
def bestPolygonIdx (polys : List PolyQ) (r : List (ℚ × ℚ)) : Option ℕ :=
  (bestGo r polys 0 none).map Prod.fst

/-- Body of `if let Some(idx) = best_polygon_idx { polygons[idx].interiors_push(inner_ring) }`:
attach the ring to the chosen polygon, or drop it silently. -/
def assignStep (polys : List PolyQ) (r : List (ℚ × ℚ)) : List PolyQ :=
  match bestPolygonIdx polys r with
  | some idx => polys.set idx (interiorsPush (polys.getD idx ⟨[], []⟩) r)
  | none => polys

/-- Loop `for inner_ring in inner_rings` of `trace_polygons`: assign each
traced interior ring in order. -/
def assignInteriors (polys : List PolyQ) (rings : List (List (ℚ × ℚ))) : List PolyQ :=
  rings.foldl assignStep polys

/-- The contour grid as initialised by `trace_polygons`: shape
`(height + 2) × (width + 2)`, zero border, `+1` on foreground pixels and
`-1` on background pixels. -/
def initContours (img : BinaryImage) : List (List ℤ) :=
  (List.range (img.height + 2)).map fun y =>
    (List.range (img.width + 2)).map fun x =>
      if 1 ≤ y ∧ y ≤ img.height ∧ 1 ≤ x ∧ x ≤ img.width then
        if img.get_pixel (x - 1) (y - 1) then 1 else -1
      else 0

/-- State threaded through the raster scan of `trace_polygons`. -/
structure ScanState where
  grid : List (List ℤ)
  polys : List PolyQ
  inner : List (List (ℚ × ℚ))
deriving DecidableEq

/-- The `ol`/`hl` bookkeeping at the end of each scan cell: re-read
`contours[y][x]` (the trace may have changed it) and bump or drop the
counters according to its absolute value. -/
def afterCounters (st : ScanState) (y x : ℕ) (ol hl : ℤ) : ScanState × ℤ × ℤ :=
  let v := gridGet st.grid y x
  let a := v.natAbs
  if a = 2 ∨ a = 4 ∨ a = 10 ∨ a = 12 then
    if v > 0 then (st, ol + 1, hl) else (st, ol, hl + 1)
  else if a = 5 ∨ a = 7 ∨ a = 13 ∨ a = 15 then
    if v > 0 then (st, ol - 1, hl) else (st, ol, hl - 1)
  else (st, ol, hl)

/-- One cell `(y, x)` of the raster scan of `trace_polygons`: fire an
exterior trace when `ol == hl` and the cell is `+1` with a non-positive
4-neighbour; fire a hole trace when `ol > hl` and the cell is `-1` with a
positive 4-neighbour; then update the counters. -/
def scanCell (y x : ℕ) (s : ScanState × ℤ × ℤ) : ScanState × ℤ × ℤ :=
  let st := s.1
  let ol := s.2.1
  let hl := s.2.2
  let c := gridGet st.grid y x
  if ol = hl ∧ c = 1 then
    if gridGet st.grid y (x - 1) ≤ 0 ∨ gridGet st.grid (y - 1) x ≤ 0 ∨
        gridGet st.grid (y + 1) x ≤ 0 ∨ gridGet st.grid y (x + 1) ≤ 0 then
      let res := trace_polygon true x y [2, 3, 4, 5, 6, 7, 0, 1] 2 (7, 1, 0)
        O_VERTEX_WITH_BORDER O_VALUE_FOR_SIGNED st.grid
      let st2 := { st with grid := res.2, polys := st.polys ++ [⟨closeRing res.1, []⟩] }
      afterCounters st2 y x ol hl
    else afterCounters st y x ol hl
  else if ol > hl ∧ c = -1 then
    if gridGet st.grid y (x - 1) > 0 ∨ gridGet st.grid (y - 1) x > 0 ∨
        gridGet st.grid (y + 1) x > 0 ∨ gridGet st.grid y (x + 1) > 0 then
      let res := trace_polygon false x y [4, 5, 6, 7, 0, 1, 2, 3] (-2) (1, 7, 6)
        H_VERTEX_WITH_BORDER H_VALUE_FOR_SIGNED st.grid
      let st2 := { st with grid := res.2, inner := st.inner ++ [res.1] }
      afterCounters st2 y x ol hl
    else afterCounters st y x ol hl
  else afterCounters st y x ol hl

/-- One row `y` of the raster scan: `ol` and `hl` reset to zero, then the
cells `x = 1..=width` in order. -/
def scanRow (img : BinaryImage) (st : ScanState) (y : ℕ) : ScanState :=
  ((List.range' 1 img.width).foldl (fun s x => scanCell y x s) (st, 0, 0)).1

/-- Function `BinaryImage::trace_polygons()`: initialise the contour
grid, raster-scan rows `1..=height` tracing exteriors and holes, then
assign each interior ring to its best containing polygon. -/
def trace_polygons (img : BinaryImage) : List PolyQ :=
  let st0 : ScanState := { grid := initContours img, polys := [], inner := [] }
  let stF := (List.range' 1 img.height).foldl (scanRow img) st0
  assignInteriors stF.polys stF.inner

end Mimesis


/-! ### Chunking lemmas -/

namespace Mimesis

theorem chunksF_nil (k fuel : ℕ) : chunksF k fuel ([] : List α) = [] := by
  cases fuel <;> rfl

theorem chunksF_cons (k fuel : ℕ) (x : α) (xs : List α) :
    chunksF k (fuel + 1) (x :: xs) = (x :: xs.take k) :: chunksF k fuel (xs.drop k) := rfl

theorem chunksF_length_of_mul (k : ℕ) :
    ∀ (fuel m : ℕ) (l : List α), l.length ≤ fuel → l.length = m * (k + 1) →
      (chunksF k fuel l).length = m := by
  intro fuel
  induction fuel with
  | zero =>
    intro m l hle hm
    have hl : l = [] := List.length_eq_zero.mp (by omega)
    subst hl
    have hm0 : m = 0 := by
      rcases Nat.mul_eq_zero.mp hm.symm with h | h
      · exact h
      · omega
    subst hm0
    simp [chunksF_nil]
  | succ fuel ih =>
    intro m l hle hm
    cases l with
    | nil =>
      have hm0 : m = 0 := by
        rcases Nat.mul_eq_zero.mp hm.symm with h | h
        · exact h
        · omega
      subst hm0
      simp [chunksF_nil]
    | cons x xs =>
      obtain ⟨m', rfl⟩ : ∃ m', m = m' + 1 := by
        cases m with
        | zero => simp at hm
        | succ m' => exact ⟨m', rfl⟩
      rw [chunksF_cons]
      have hm' : xs.length + 1 = m' * (k + 1) + (k + 1) := by
        have : (m' + 1) * (k + 1) = m' * (k + 1) + (k + 1) := by ring
        simpa [this] using hm
      have hdlen : (xs.drop k).length = m' * (k + 1) := by
        simp only [List.length_drop]
        omega
      have hdle : (xs.drop k).length ≤ fuel := by
        simp only [List.length_drop]
        simp at hle
        omega
      simp [ih m' _ hdle hdlen]

theorem chunksF_getD_of_mul (k : ℕ) :
    ∀ (i fuel m : ℕ) (l : List α), l.length ≤ fuel → l.length = m * (k + 1) → i < m →
      (chunksF k fuel l).getD i [] = (l.drop ((k + 1) * i)).take (k + 1) := by
  intro i
  induction i with
  | zero =>
    intro fuel m l hle hm hi
    obtain ⟨x, xs, rfl⟩ : ∃ x xs, l = x :: xs := by
      cases l with
      | nil =>
        exfalso
        have hm0 : m = 0 := by
          rcases Nat.mul_eq_zero.mp hm.symm with h | h
          · exact h
          · omega
        omega
      | cons x xs => exact ⟨x, xs, rfl⟩
    obtain ⟨fuel', rfl⟩ : ∃ fuel', fuel = fuel' + 1 := by
      cases fuel with
      | zero => simp at hle
      | succ fuel' => exact ⟨fuel', rfl⟩
    rw [chunksF_cons]
    simp [List.take_cons]
  | succ i ih =>
    intro fuel m l hle hm hi
    obtain ⟨x, xs, rfl⟩ : ∃ x xs, l = x :: xs := by
      cases l with
      | nil =>
        exfalso
        have hm0 : m = 0 := by
          rcases Nat.mul_eq_zero.mp hm.symm with h | h
          · exact h
          · omega
        omega
      | cons x xs => exact ⟨x, xs, rfl⟩
    obtain ⟨fuel', rfl⟩ : ∃ fuel', fuel = fuel' + 1 := by
      cases fuel with
      | zero => simp at hle
      | succ fuel' => exact ⟨fuel', rfl⟩
    obtain ⟨m', rfl⟩ : ∃ m', m = m' + 1 := by
      cases m with
      | zero => omega
      | succ m' => exact ⟨m', rfl⟩
    have hm' : xs.length + 1 = m' * (k + 1) + (k + 1) := by
      have hr : (m' + 1) * (k + 1) = m' * (k + 1) + (k + 1) := by ring
      simpa [hr] using hm
    have hxs : xs.length ≤ fuel' := by
      simpa using hle
    have hdlen : (xs.drop k).length = m' * (k + 1) := by
      simp only [List.length_drop]
      omega
    have hdle : (xs.drop k).length ≤ fuel' := by
      simp only [List.length_drop]
      omega
    have hrec := ih fuel' m' (xs.drop k) hdle hdlen (by omega)
    calc (chunksF k (fuel' + 1) (x :: xs)).getD (i + 1) []
        = (chunksF k fuel' (xs.drop k)).getD i [] := by
          rw [chunksF_cons, List.getD_cons_succ]
      _ = ((xs.drop k).drop ((k + 1) * i)).take (k + 1) := hrec
      _ = (xs.drop (k + (k + 1) * i)).take (k + 1) := by rw [List.drop_drop]
      _ = ((x :: xs).drop (k + (k + 1) * i + 1)).take (k + 1) := by
          rw [List.drop_succ_cons]
      _ = ((x :: xs).drop ((k + 1) * (i + 1))).take (k + 1) := by
          have heq : k + (k + 1) * i + 1 = (k + 1) * (i + 1) := by ring
          rw [heq]

end Mimesis

/-! ### Claims C1 and C5 -/

/-- C1 (counterexample).  The claim says a chunk whose bytes are `[0, 5]`
(one byte non-zero) yields a foreground pixel; the source computes
`!pixel.iter().any(Zero::is_zero)`, which is `false` as soon as any byte
is zero.  At `from_raw 1 1 [0, 5]` (so `k = 2 > 1`) the sole output pixel
is background, not foreground. -/
theorem C1_cx :
    Mimesis.from_raw 1 1 [0, 5] =
      some { width := 1, height := 1, buffer := [false] } ∧
    Mimesis.from_raw 1 1 [0, 5] ≠
      some { width := 1, height := 1, buffer := [true] } := by
  constructor
  · rfl
  · decide

/-- C1 (amended).  For `from_raw(w, h, buffer)` with `buffer.length =
k * (w*h)`, `k > 1` and `w*h > 0`: construction succeeds, each group of
`k` consecutive bytes becomes one output pixel, and that pixel is
foreground iff **every** byte in its chunk is non-zero. -/
theorem C1_from_raw_chunks (w h k : ℕ) (buffer : List ℕ)
    (hk : 1 < k) (hs : 0 < w * h) (hlen : buffer.length = k * (w * h)) :
    ∃ img : Mimesis.BinaryImage,
      Mimesis.from_raw w h buffer = some img ∧
      img.buffer.length = w * h ∧
      ∀ i, i < w * h →
        (img.buffer.getD i false = true ↔
          ∀ b ∈ (buffer.drop (k * i)).take k, b ≠ 0) := by
  have hnlt : ¬ (buffer.length < w * h ∨ w * h = 0) := by
    push_neg
    refine ⟨?_, by omega⟩
    calc w * h = 1 * (w * h) := by ring
      _ ≤ k * (w * h) := Nat.mul_le_mul_right _ (by omega)
      _ = buffer.length := hlen.symm
  have hstep : buffer.length / (w * h) = k := by
    rw [hlen, Nat.mul_div_cancel _ hs]
  have hk1 : k - 1 + 1 = k := by omega
  have hmul : buffer.length = (w * h) * (k - 1 + 1) := by rw [hlen, hk1]; ring
  have hfr : Mimesis.from_raw w h buffer =
      some { width := w, height := h,
             buffer := (Mimesis.rustChunks k buffer).map
               (fun pixel => !pixel.any (· == 0)) } := by
    rw [Mimesis.from_raw, if_neg hnlt, hstep]
  refine ⟨_, hfr, ?_, ?_⟩
  · rw [List.length_map, Mimesis.rustChunks,
        Mimesis.chunksF_length_of_mul (k - 1) _ (w * h) buffer le_rfl hmul]
  · intro i hi
    have hclen : (Mimesis.chunksF (k - 1) buffer.length buffer).length = w * h :=
      Mimesis.chunksF_length_of_mul (k - 1) _ (w * h) buffer le_rfl hmul
    have hilt : i < (Mimesis.chunksF (k - 1) buffer.length buffer).length := by
      rw [hclen]; exact hi
    have hchunk := Mimesis.chunksF_getD_of_mul (k - 1) i _ (w * h) buffer le_rfl hmul hi
    rw [hk1] at hchunk
    have hget : ((Mimesis.rustChunks k buffer).map
        (fun pixel => !pixel.any (· == 0))).getD i false =
        !((buffer.drop (k * i)).take k).any (· == 0) := by
      rw [Mimesis.rustChunks, List.getD_eq_getElem?_getD, List.getElem?_map,
          List.getElem?_eq_getElem hilt]
      simp only [Option.map_some', Option.getD_some]
      rw [List.getD_eq_getElem?_getD, List.getElem?_eq_getElem hilt,
          Option.getD_some] at hchunk
      exact congrArg (fun l => !l.any (· == 0)) hchunk
    simp only [hget]
    simp [List.any_eq_true]

/-- C1 (witness for the amended theorem): `from_raw 2 1 [1,2,3,0]` with
`k = 2` has two pixels, the first (`[1,2]`, all non-zero) foreground. -/
theorem C1_witness :
    1 < 2 ∧ 0 < 2 * 1 ∧ ([1, 2, 3, 0] : List ℕ).length = 2 * (2 * 1) ∧
    ∃ img : Mimesis.BinaryImage,
      Mimesis.from_raw 2 1 [1, 2, 3, 0] = some img ∧
      img.buffer.length = 2 * 1 ∧
      ∀ i, i < 2 * 1 →
        (img.buffer.getD i false = true ↔
          ∀ b ∈ (([1, 2, 3, 0] : List ℕ).drop (2 * i)).take 2, b ≠ 0) :=
  ⟨by decide, by decide, by decide,
    C1_from_raw_chunks 2 1 2 [1, 2, 3, 0] (by decide) (by decide) (by decide)⟩

/-- C5 (counterexample).  On a buffer shorter than `w*h`, `from_raw` does
not return an `InvalidDimensions` error: the crate's `Error` enum
(`error.rs`) has no such variant, `from_raw`'s return type (`Self`) has
no error channel at all, and the short-buffer case is a `debug_assert`
violation / `chunks(0)` panic, modelled as `none`. -/
theorem C5_cx : Mimesis.from_raw 2 2 [0] = none := by rfl

/-- C5 (amended).  `from_raw(w, h, buffer)` never returns an
`InvalidDimensions` error (no such `Error` variant exists and the
function is infallible by type); instead, when the buffer is shorter
than `w*h` — or when `w*h = 0`, where the chunk-size division is by
zero — it panics (debug assertion or `chunks(0)`/division panic), and in
exactly those cases no mask is produced. -/
theorem C5_from_raw_short (w h : ℕ) (buffer : List ℕ) :
    Mimesis.from_raw w h buffer = none ↔
      (buffer.length < w * h ∨ w * h = 0) := by
  rw [Mimesis.from_raw]
  by_cases hc : buffer.length < w * h ∨ w * h = 0
  · rw [if_pos hc]
    exact iff_of_true rfl hc
  · rw [if_neg hc]
    constructor
    · intro hcontra
      simp at hcontra
    · intro hcontra
      exact absurd hcontra hc


/-! Section: Claim C4 -/

/-- C4 (counterexample).  With texture names "front.png", "back.png",
"side.png" the written `map_Kd` lines carry the names as given; no
`textures/` path component is prepended anywhere in `export_mtl` (the
orchestrator copies texture files into a `textures/` directory, but the
MTL written by this function references the bare names). -/
theorem C4_cx :
    Mimesis.mapKdPaths (Mimesis.export_mtl "front.png" "back.png" "side.png") =
      ["front.png", "back.png", "side.png"] ∧
    Mimesis.mapKdPaths (Mimesis.export_mtl "front.png" "back.png" "side.png") ≠
      ["textures/front.png", "textures/back.png", "textures/side.png"] := by
  constructor
  · rfl
  · decide

/-- C4 (amended).  The MTL content is exactly three material blocks named
`front`, `back`, `side`, each with `Ka 1.0 1.0 1.0`, `Kd 1.0 1.0 1.0`,
`Ks 0.0 0.0 0.0`, `d 1.0`, `Ns 10.0`, `illum 2` and a `map_Kd` line whose
path is the corresponding texture name exactly as supplied (no `textures/`
prefix), separated by blank lines. -/
theorem C4_export_mtl (f b s : String) :
    Mimesis.export_mtl f b s =
      Mimesis.mtlBlock "front" f ++
        Mimesis.MtlLine.blank :: Mimesis.mtlBlock "back" b ++
          Mimesis.MtlLine.blank :: Mimesis.mtlBlock "side" s ∧
    Mimesis.newmtlNames (Mimesis.export_mtl f b s) = ["front", "back", "side"] ∧
    Mimesis.mapKdPaths (Mimesis.export_mtl f b s) = [f, b, s] :=
  ⟨rfl, rfl, rfl⟩

/-! Section: extrude length lemmas -/

namespace Mimesis

theorem triangles_length : ∀ l : List ℕ, 3 ∣ l.length → (triangles l).length = l.length / 3
  | [], _ => rfl
  | [a], h => by simp at h
  | [a, b], h => by
      exfalso
      simp only [List.length_cons, List.length_nil] at h
      omega
  | a :: b :: c :: rest, h => by
      have hr : 3 ∣ rest.length := by
        simp only [List.length_cons] at h ⊢
        omega
      have := triangles_length rest hr
      simp only [triangles, List.length_cons, this]
      omega

theorem sortEdges_length (l : List (ℕ × ℕ)) : (sortEdges l).length = l.length :=
  (List.perm_insertionSort edgeKeyLe l).length_eq

theorem sideEmit_lengths (lenF : (ℚ × ℚ) → (ℚ × ℚ) → ℚ) (verts : List (ℚ × ℚ))
    (total depth : ℚ) :
    ∀ (es : List (ℕ × ℕ)) (curU : ℚ) (base : ℕ),
      (sideEmit lenF verts total depth es curU base).1.length = 4 * es.length ∧
      (sideEmit lenF verts total depth es curU base).2.1.length = 4 * es.length ∧
      (sideEmit lenF verts total depth es curU base).2.2.length = 2 * es.length := by
  intro es
  induction es with
  | nil => intro curU base; exact ⟨rfl, rfl, rfl⟩
  | cons e es ih =>
    intro curU base
    obtain ⟨i0, i1⟩ := e
    obtain ⟨h1, h2, h3⟩ := ih (curU + lenF (verts.getD i0 (0, 0)) (verts.getD i1 (0, 0))) (base + 4)
    refine ⟨?_, ?_, ?_⟩ <;>
      simp only [sideEmit, List.length_append, List.length_cons, List.length_nil,
        h1, h2, h3] <;> ring

end Mimesis

/-- C6.  For a `Mesh2D` with `n` vertices whose index list is a whole
number of triangles, with `B` the number of boundary edges (normalized
edges occurring in exactly one triangle): the extruded mesh has
`vertices.length = uvs.length = 2n + 4B`, its `front` and `back` groups
hold `indices.length / 3` triangles each, and its `side` group holds
`2B` triangles — two per boundary edge. -/
theorem C6_extrude_counts (lenF : (ℚ × ℚ) → (ℚ × ℚ) → ℚ) (m : Mimesis.Mesh2D)
    (depth : ℚ) (h3 : 3 ∣ m.indices.length) :
    (Mimesis.extrude lenF m depth).vertices.length =
      2 * m.vertices.length + 4 * (Mimesis.boundaryEdges m).length ∧
    (Mimesis.extrude lenF m depth).uvs.length =
      2 * m.vertices.length + 4 * (Mimesis.boundaryEdges m).length ∧
    (Mimesis.extrude lenF m depth).faces.map (fun g => (g.name, g.indices.length)) =
      [("front", m.indices.length / 3), ("back", m.indices.length / 3),
       ("side", 2 * (Mimesis.boundaryEdges m).length)] := by
  obtain ⟨hv, hu, hs⟩ := Mimesis.sideEmit_lengths lenF m.vertices
    (Mimesis.totalPerimeter lenF m (Mimesis.boundaryEdges m))
    depth (Mimesis.sortEdges (Mimesis.boundaryEdges m)) 0 (2 * m.vertices.length)
  refine ⟨?_, ?_, ?_⟩
  · simp only [Mimesis.extrude, Mimesis.extrudeWith, Mimesis.sideOf,
      Mimesis.frontVerts, Mimesis.backVerts, List.length_append,
      List.length_map, hv, Mimesis.sortEdges_length]
    ring
  · simp only [Mimesis.extrude, Mimesis.extrudeWith, Mimesis.sideOf,
      Mimesis.fbUV, List.length_append,
      List.length_map, hu, Mimesis.sortEdges_length]
    ring
  · simp only [Mimesis.extrude, Mimesis.extrudeWith, Mimesis.sideOf,
      List.map_cons, List.map_nil,
      List.length_map, hs, Mimesis.sortEdges_length,
      Mimesis.triangles_length m.indices h3]

/-- C6 (witness): the unit-square mesh has 4 vertices, 6 indices and 4
boundary edges, so the extrusion has 24 vertices and UVs, 2 + 2 front/back
triangles and 8 side triangles. -/
theorem C6_witness :
    3 ∣ Mimesis.sqMesh.indices.length ∧
    (Mimesis.extrude Mimesis.euclidLen Mimesis.sqMesh 1).vertices.length =
      2 * Mimesis.sqMesh.vertices.length + 4 * (Mimesis.boundaryEdges Mimesis.sqMesh).length ∧
    (Mimesis.extrude Mimesis.euclidLen Mimesis.sqMesh 1).uvs.length =
      2 * Mimesis.sqMesh.vertices.length + 4 * (Mimesis.boundaryEdges Mimesis.sqMesh).length ∧
    (Mimesis.extrude Mimesis.euclidLen Mimesis.sqMesh 1).faces.map
        (fun g => (g.name, g.indices.length)) =
      [("front", Mimesis.sqMesh.indices.length / 3),
       ("back", Mimesis.sqMesh.indices.length / 3),
       ("side", 2 * (Mimesis.boundaryEdges Mimesis.sqMesh).length)] :=
  ⟨by decide, C6_extrude_counts Mimesis.euclidLen Mimesis.sqMesh 1 (by decide)⟩

/-! Section: Claim C3 -/

namespace Mimesis

/-- Shape of the side-quad stream: UV entry `k` has `v = 0` when
`k % 4 < 2` (the two `z = 0` corners of its quad) and `v = 1` otherwise
(the two `z = depth` corners), and the matching vertex has the matching
`z`. -/
theorem sideEmit_pattern (lenF : (ℚ × ℚ) → (ℚ × ℚ) → ℚ) (verts : List (ℚ × ℚ))
    (total depth : ℚ) :
    ∀ (es : List (ℕ × ℕ)) (curU : ℚ) (base k : ℕ), k < 4 * es.length →
      ((sideEmit lenF verts total depth es curU base).2.1.getD k (0, 0)).2 =
        (if k % 4 < 2 then 0 else 1) ∧
      ((sideEmit lenF verts total depth es curU base).1.getD k (0, 0, 0)).2.2 =
        (if k % 4 < 2 then 0 else depth) := by
  intro es
  induction es with
  | nil =>
    intro curU base k hk
    simp at hk
  | cons e es ih =>
    intro curU base k hk
    obtain ⟨i0, i1⟩ := e
    by_cases h4 : k < 4
    · interval_cases k <;> constructor <;> rfl
    · push_neg at h4
      have hk4 : k - 4 < 4 * es.length := by
        simp only [List.length_cons] at hk
        omega
      obtain ⟨huv, hvert⟩ := ih (curU + lenF (verts.getD i0 (0, 0)) (verts.getD i1 (0, 0)))
        (base + 4) (k - 4) hk4
      have hmod : (k - 4) % 4 = k % 4 := by omega
      rw [hmod] at huv hvert
      constructor
      · rw [show (sideEmit lenF verts total depth ((i0, i1) :: es) curU base).2.1 =
            [(curU / total, 0),
             ((curU + lenF (verts.getD i0 (0, 0)) (verts.getD i1 (0, 0))) / total, 0),
             ((curU + lenF (verts.getD i0 (0, 0)) (verts.getD i1 (0, 0))) / total, 1),
             (curU / total, 1)] ++
            (sideEmit lenF verts total depth es
              (curU + lenF (verts.getD i0 (0, 0)) (verts.getD i1 (0, 0))) (base + 4)).2.1
          from rfl]
        rw [List.getD_append_right _ _ _ _ (by simpa using h4)]
        simpa using huv
      · rw [show (sideEmit lenF verts total depth ((i0, i1) :: es) curU base).1 =
            [((verts.getD i0 (0, 0)).1, (verts.getD i0 (0, 0)).2, 0),
             ((verts.getD i1 (0, 0)).1, (verts.getD i1 (0, 0)).2, 0),
             ((verts.getD i1 (0, 0)).1, (verts.getD i1 (0, 0)).2, depth),
             ((verts.getD i0 (0, 0)).1, (verts.getD i0 (0, 0)).2, depth)] ++
            (sideEmit lenF verts total depth es
              (curU + lenF (verts.getD i0 (0, 0)) (verts.getD i1 (0, 0))) (base + 4)).1
          from rfl]
        rw [List.getD_append_right _ _ _ _ (by simpa using h4)]
        simpa using hvert

end Mimesis

/-- C3 (counterexample).  On the unit-square mesh the side-quad UV at
offset 2 of the side stream (a `z = depth` corner) has `v = 1`, which is
not in the claimed set `{0, -1}`. -/
theorem C3_cx :
    ((Mimesis.extrude Mimesis.euclidLen Mimesis.sqMesh 1).uvs.getD 10 (0, 0)).2 = 1 ∧
    ¬ (((Mimesis.extrude Mimesis.euclidLen Mimesis.sqMesh 1).uvs.getD 10 (0, 0)).2 = 0 ∨
       ((Mimesis.extrude Mimesis.euclidLen Mimesis.sqMesh 1).uvs.getD 10 (0, 0)).2 = -1) := by
  constructor
  · decide
  · decide

/-- C3 (amended).  Every sidewall vertex has UV `v ∈ {0, 1}` (not
`{0, -1}`): for side-stream offset `k`, the two vertices at `z = 0` of
each quad (`k % 4 < 2`) carry `v = 0` and the two vertices at `z = depth`
carry `v = 1`; the matching vertex carries the matching `z`. -/
theorem C3_side_v (lenF : (ℚ × ℚ) → (ℚ × ℚ) → ℚ) (m : Mimesis.Mesh2D) (depth : ℚ)
    (k : ℕ) (hk : k < 4 * (Mimesis.boundaryEdges m).length) :
    (((Mimesis.extrude lenF m depth).uvs.getD (2 * m.vertices.length + k) (0, 0)).2 =
      if k % 4 < 2 then 0 else 1) ∧
    (((Mimesis.extrude lenF m depth).vertices.getD (2 * m.vertices.length + k) (0, 0, 0)).2.2 =
      if k % 4 < 2 then 0 else depth) := by
  have hk4 : k < 4 * (Mimesis.sortEdges (Mimesis.boundaryEdges m)).length := by
    rwa [Mimesis.sortEdges_length]
  obtain ⟨huv, hvert⟩ := Mimesis.sideEmit_pattern lenF m.vertices
    (Mimesis.totalPerimeter lenF m (Mimesis.boundaryEdges m))
    depth (Mimesis.sortEdges (Mimesis.boundaryEdges m)) 0 (2 * m.vertices.length) k hk4
  have hfb : (Mimesis.fbUV m).length = m.vertices.length := by
    simp [Mimesis.fbUV]
  have hfv : (Mimesis.frontVerts m).length = m.vertices.length := by
    simp [Mimesis.frontVerts]
  have hbv : (Mimesis.backVerts m depth).length = m.vertices.length := by
    simp [Mimesis.backVerts]
  have harith : 2 * m.vertices.length + k - m.vertices.length - m.vertices.length = k := by
    omega
  constructor
  · rw [show (Mimesis.extrude lenF m depth).uvs =
        Mimesis.fbUV m ++ (Mimesis.fbUV m ++
          (Mimesis.sideOf lenF m depth (Mimesis.boundaryEdges m)).2.1) from rfl]
    rw [List.getD_append_right _ _ _ _ (by rw [hfb]; omega), hfb]
    rw [List.getD_append_right _ _ _ _ (by rw [hfb]; omega), hfb]
    rw [harith]
    exact huv
  · rw [show (Mimesis.extrude lenF m depth).vertices =
        Mimesis.frontVerts m ++ (Mimesis.backVerts m depth ++
          (Mimesis.sideOf lenF m depth (Mimesis.boundaryEdges m)).1) from rfl]
    rw [List.getD_append_right _ _ _ _ (by rw [hfv]; omega), hfv]
    rw [List.getD_append_right _ _ _ _ (by rw [hbv]; omega), hbv]
    rw [harith]
    exact hvert

/-- C3 (witness): on the unit-square mesh at offset `k = 2` the side UV
has `v = 1` and the side vertex has `z = depth = 1`. -/
theorem C3_witness :
    2 < 4 * (Mimesis.boundaryEdges Mimesis.sqMesh).length ∧
    ((((Mimesis.extrude Mimesis.euclidLen Mimesis.sqMesh 1).uvs.getD
        (2 * Mimesis.sqMesh.vertices.length + 2) (0, 0)).2 =
      if 2 % 4 < 2 then 0 else 1) ∧
     (((Mimesis.extrude Mimesis.euclidLen Mimesis.sqMesh 1).vertices.getD
        (2 * Mimesis.sqMesh.vertices.length + 2) (0, 0, 0)).2.2 =
      if 2 % 4 < 2 then 0 else 1)) :=
  ⟨by decide, C3_side_v Mimesis.euclidLen Mimesis.sqMesh 1 2 (by decide)⟩

/-! Section: Claim C2 -/

namespace Mimesis

/-- Reading index `i` of a mapped list, `i` in range, is `f` of entry `i`. -/
theorem getD_map_of_lt (f : α → β) (l : List α) (i : ℕ) (hi : i < l.length)
    (d : β) (c : α) : (l.map f).getD i d = f (l.getD i c) := by
  rw [List.getD_eq_getElem?_getD, List.getD_eq_getElem?_getD, List.getElem?_map,
      List.getElem?_eq_getElem hi]
  simp

end Mimesis

/-- C2 (counterexample).  On the unit-square mesh (bounding box
`[0,1] × [0,1]`, so `image_w = image_h = 1` for a matching texture), the
front UV of vertex 2 `(1, 1)` is `(1, 1)` — the bounding-box normalized
value — whereas the claim's formula `(x/image_w, -y/image_h)` gives
`(1, -1)`. -/
theorem C2_cx :
    (Mimesis.extrude Mimesis.euclidLen Mimesis.sqMesh 1).uvs.getD 2 (0, 0) = (1, 1) ∧
    (Mimesis.extrude Mimesis.euclidLen Mimesis.sqMesh 1).uvs.getD 2 (0, 0) ≠
      ((1 : ℚ) / 1, -(1 : ℚ) / 1) := by
  constructor
  · decide
  · decide

/-- C2 (amended).  For every 2D vertex `(x, y)` of the input mesh,
`extrude` emits a front vertex `(x, y, 0)` and a back vertex
`(x, y, depth)` (this part of the claim holds), but the UV assigned to
both is the bounding-box normalized `((x - min_x)/dx, (y - min_y)/dy)`
(with `dx`, `dy` the bounding-box extents, `1` when degenerate), not
`(x/image_w, -y/image_h)`; `extrude` takes no image dimensions at all. -/
theorem C2_front_back_uv (lenF : (ℚ × ℚ) → (ℚ × ℚ) → ℚ) (m : Mimesis.Mesh2D)
    (depth : ℚ) (i : ℕ) (hi : i < m.vertices.length) :
    (Mimesis.extrude lenF m depth).vertices.getD i (0, 0, 0) =
      ((m.vertices.getD i (0, 0)).1, (m.vertices.getD i (0, 0)).2, 0) ∧
    (Mimesis.extrude lenF m depth).vertices.getD (m.vertices.length + i) (0, 0, 0) =
      ((m.vertices.getD i (0, 0)).1, (m.vertices.getD i (0, 0)).2, depth) ∧
    (Mimesis.extrude lenF m depth).uvs.getD i (0, 0) =
      (((m.vertices.getD i (0, 0)).1 - Mimesis.minX m) / Mimesis.dxBB m,
       ((m.vertices.getD i (0, 0)).2 - Mimesis.minY m) / Mimesis.dyBB m) ∧
    (Mimesis.extrude lenF m depth).uvs.getD (m.vertices.length + i) (0, 0) =
      (((m.vertices.getD i (0, 0)).1 - Mimesis.minX m) / Mimesis.dxBB m,
       ((m.vertices.getD i (0, 0)).2 - Mimesis.minY m) / Mimesis.dyBB m) := by
  have hfv : (Mimesis.frontVerts m).length = m.vertices.length := by
    simp [Mimesis.frontVerts]
  have hbv : (Mimesis.backVerts m depth).length = m.vertices.length := by
    simp [Mimesis.backVerts]
  have hfb : (Mimesis.fbUV m).length = m.vertices.length := by
    simp [Mimesis.fbUV]
  have hverts : (Mimesis.extrude lenF m depth).vertices =
      Mimesis.frontVerts m ++ (Mimesis.backVerts m depth ++
        (Mimesis.sideOf lenF m depth (Mimesis.boundaryEdges m)).1) := rfl
  have huvs : (Mimesis.extrude lenF m depth).uvs =
      Mimesis.fbUV m ++ (Mimesis.fbUV m ++
        (Mimesis.sideOf lenF m depth (Mimesis.boundaryEdges m)).2.1) := rfl
  refine ⟨?_, ?_, ?_, ?_⟩
  · rw [hverts, List.getD_append _ _ _ _ (by rw [hfv]; omega)]
    exact Mimesis.getD_map_of_lt _ m.vertices i hi _ (0, 0)
  · rw [hverts, List.getD_append_right _ _ _ _ (by rw [hfv]; omega), hfv,
        Nat.add_sub_cancel_left, List.getD_append _ _ _ _ (by rw [hbv]; omega)]
    exact Mimesis.getD_map_of_lt _ m.vertices i hi _ (0, 0)
  · rw [huvs, List.getD_append _ _ _ _ (by rw [hfb]; omega)]
    exact Mimesis.getD_map_of_lt _ m.vertices i hi _ (0, 0)
  · rw [huvs, List.getD_append_right _ _ _ _ (by rw [hfb]; omega), hfb,
        Nat.add_sub_cancel_left, List.getD_append _ _ _ _ (by rw [hfb]; omega)]
    exact Mimesis.getD_map_of_lt _ m.vertices i hi _ (0, 0)

/-- C2 (witness): on the unit-square mesh, vertex 2 `(1, 1)` at depth 1
gets front vertex `(1, 1, 0)`, back vertex `(1, 1, 1)` and UV `(1, 1)` on
both copies. -/
theorem C2_witness :
    2 < Mimesis.sqMesh.vertices.length ∧
    ((Mimesis.extrude Mimesis.euclidLen Mimesis.sqMesh 1).vertices.getD 2 (0, 0, 0) =
      ((Mimesis.sqMesh.vertices.getD 2 (0, 0)).1,
       (Mimesis.sqMesh.vertices.getD 2 (0, 0)).2, 0) ∧
     (Mimesis.extrude Mimesis.euclidLen Mimesis.sqMesh 1).vertices.getD
        (Mimesis.sqMesh.vertices.length + 2) (0, 0, 0) =
      ((Mimesis.sqMesh.vertices.getD 2 (0, 0)).1,
       (Mimesis.sqMesh.vertices.getD 2 (0, 0)).2, 1) ∧
     (Mimesis.extrude Mimesis.euclidLen Mimesis.sqMesh 1).uvs.getD 2 (0, 0) =
      (((Mimesis.sqMesh.vertices.getD 2 (0, 0)).1 - Mimesis.minX Mimesis.sqMesh) /
         Mimesis.dxBB Mimesis.sqMesh,
       ((Mimesis.sqMesh.vertices.getD 2 (0, 0)).2 - Mimesis.minY Mimesis.sqMesh) /
         Mimesis.dyBB Mimesis.sqMesh) ∧
     (Mimesis.extrude Mimesis.euclidLen Mimesis.sqMesh 1).uvs.getD
        (Mimesis.sqMesh.vertices.length + 2) (0, 0) =
      (((Mimesis.sqMesh.vertices.getD 2 (0, 0)).1 - Mimesis.minX Mimesis.sqMesh) /
         Mimesis.dxBB Mimesis.sqMesh,
       ((Mimesis.sqMesh.vertices.getD 2 (0, 0)).2 - Mimesis.minY Mimesis.sqMesh) /
         Mimesis.dyBB Mimesis.sqMesh)) :=
  ⟨by decide, C2_front_back_uv Mimesis.euclidLen Mimesis.sqMesh 1 2 (by decide)⟩

/-! Section: Claim C9 -/

namespace Mimesis

/-- A list sorted by the edge key whose keys are pairwise distinct is
sorted by the strict key. -/
theorem sorted_keyLt_of_keyLe :
    ∀ l : List (ℕ × ℕ), List.Sorted edgeKeyLe l → (l.map Prod.fst).Nodup →
      List.Sorted edgeKeyLt l := by
  intro l
  induction l with
  | nil => intro _ _; exact List.sorted_nil
  | cons a l ih =>
    intro hs hn
    rw [List.sorted_cons] at hs ⊢
    rw [List.map_cons, List.nodup_cons] at hn
    refine ⟨?_, ih hs.2 hn.2⟩
    intro b hb
    have hle : a.1 ≤ b.1 := hs.1 b hb
    have hne : a.1 ≠ b.1 := by
      intro he
      exact hn.1 (he ▸ List.mem_map_of_mem Prod.fst hb)
    exact lt_of_le_of_ne hle hne

end Mimesis

/-- C9 (counterexample).  Whether `extrude`'s output is fixed depends on
the order in which the boundary edges come out of the `HashMap` (Rust
randomizes its iteration order per process): the sort key `min(i0, i1)`
does not discriminate the two edges at the lowest-numbered boundary
vertex, and `sort_by_key` is stable, so the tied edges keep their
hash-iteration order.  On the unit-square mesh the boundary edge lists
`[(0,1), (1,2), (2,3), (0,3)]` and `[(0,3), (1,2), (2,3), (0,1)]` are
permutations of the same boundary-edge set (two legal hash iteration
orders), yet they yield different side-quad vertex streams. -/
theorem C9_cx :
    ([(0, 1), (1, 2), (2, 3), (0, 3)] : List (ℕ × ℕ)).Perm
      (Mimesis.boundaryEdges Mimesis.sqMesh) ∧
    ([(0, 3), (1, 2), (2, 3), (0, 1)] : List (ℕ × ℕ)).Perm
      (Mimesis.boundaryEdges Mimesis.sqMesh) ∧
    (Mimesis.extrudeWith [(0, 1), (1, 2), (2, 3), (0, 3)]
        Mimesis.euclidLen Mimesis.sqMesh 1).vertices ≠
      (Mimesis.extrudeWith [(0, 3), (1, 2), (2, 3), (0, 1)]
        Mimesis.euclidLen Mimesis.sqMesh 1).vertices := by
  refine ⟨by decide, by decide, by decide⟩

/-- C9 (amended).  `extrude` is a pure function of the mesh, the depth
and the hash-map iteration order of the boundary edges; the sort by
`min(i0, i1)` fixes the output only when the boundary edges' min-keys
are pairwise distinct (in that case any iteration order — any
permutation of the boundary-edge set — gives the same `Mesh3D`).  When
two boundary edges share a min-key (as happens at the lowest-numbered
vertex of every closed boundary loop), the stable sort preserves the
unspecified hash order and the side-quad vertex/UV assignment can vary
between runs. -/
theorem C9_deterministic_of_distinct_keys (lenF : (ℚ × ℚ) → (ℚ × ℚ) → ℚ)
    (m : Mimesis.Mesh2D) (depth : ℚ) (L : List (ℕ × ℕ))
    (hperm : L.Perm (Mimesis.boundaryEdges m))
    (hnd : ((Mimesis.boundaryEdges m).map Prod.fst).Nodup) :
    Mimesis.extrudeWith L lenF m depth = Mimesis.extrude lenF m depth := by
  have hsorted : Mimesis.sortEdges L = Mimesis.sortEdges (Mimesis.boundaryEdges m) := by
    have hsL : List.Sorted Mimesis.edgeKeyLe (Mimesis.sortEdges L) :=
      List.sorted_insertionSort Mimesis.edgeKeyLe L
    have hsB : List.Sorted Mimesis.edgeKeyLe
        (Mimesis.sortEdges (Mimesis.boundaryEdges m)) :=
      List.sorted_insertionSort Mimesis.edgeKeyLe (Mimesis.boundaryEdges m)
    have hperm2 : (Mimesis.sortEdges L).Perm
        (Mimesis.sortEdges (Mimesis.boundaryEdges m)) :=
      (List.perm_insertionSort Mimesis.edgeKeyLe L).trans
        (hperm.trans (List.perm_insertionSort Mimesis.edgeKeyLe _).symm)
    have hndL : ((Mimesis.sortEdges L).map Prod.fst).Nodup :=
      (((List.perm_insertionSort Mimesis.edgeKeyLe L).trans hperm).map
        Prod.fst).nodup_iff.mpr hnd
    have hndB : ((Mimesis.sortEdges (Mimesis.boundaryEdges m)).map Prod.fst).Nodup :=
      ((List.perm_insertionSort Mimesis.edgeKeyLe
        (Mimesis.boundaryEdges m)).map Prod.fst).nodup_iff.mpr hnd
    haveI : IsAntisymm (ℕ × ℕ) Mimesis.edgeKeyLt :=
      ⟨fun _ _ h1 h2 => (Nat.lt_asymm h1 h2).elim⟩
    exact List.eq_of_perm_of_sorted hperm2
      (Mimesis.sorted_keyLt_of_keyLe _ hsL hndL)
      (Mimesis.sorted_keyLt_of_keyLe _ hsB hndB)
  unfold Mimesis.extrude Mimesis.extrudeWith Mimesis.sideOf Mimesis.totalPerimeter
  rw [hsorted]

/-- C9 (witness): a degenerate mesh (triangle `(0, 1, 1)`) whose only
boundary edge is `(1, 1)`, so all min-keys are distinct and any hash
order yields the canonical output. -/
theorem C9_witness :
    ([((1 : ℕ), (1 : ℕ))]).Perm
      (Mimesis.boundaryEdges ⟨[(0, 0), (1, 0)], [0, 1, 1]⟩) ∧
    ((Mimesis.boundaryEdges ⟨[(0, 0), (1, 0)], [0, 1, 1]⟩).map Prod.fst).Nodup ∧
    Mimesis.extrudeWith [(1, 1)] Mimesis.euclidLen ⟨[(0, 0), (1, 0)], [0, 1, 1]⟩ 1 =
      Mimesis.extrude Mimesis.euclidLen ⟨[(0, 0), (1, 0)], [0, 1, 1]⟩ 1 :=
  ⟨by decide, by decide,
    C9_deterministic_of_distinct_keys Mimesis.euclidLen
      ⟨[(0, 0), (1, 0)], [0, 1, 1]⟩ 1 [(1, 1)] (by decide) (by decide)⟩

/-! Section: Claims C7 and C10 -/

namespace Mimesis

/-- The best-polygon accumulator only ever decreases: a result obtained
from a `some` accumulator is at most the accumulator's area. -/
theorem bestGo_le (r : List (ℚ × ℚ)) :
    ∀ (ps : List PolyQ) (idx b : ℕ) (ab : ℚ) (i : ℕ) (a : ℚ),
      bestGo r ps idx (some (b, ab)) = some (i, a) → a ≤ ab := by
  intro ps
  induction ps with
  | nil =>
    intro idx b ab i a h
    simp only [bestGo, Option.some.injEq, Prod.mk.injEq] at h
    exact le_of_eq h.2.symm
  | cons p ps ih =>
    intro idx b ab i a h
    simp only [bestGo] at h
    by_cases hc : polygon_contains_ring p.exterior r = true
    · rw [if_pos hc] at h
      simp only [updateBest] at h
      by_cases hlt : calculate_polygon_area p.exterior < ab
      · rw [if_pos hlt] at h
        exact le_trans (ih (idx + 1) idx _ i a h) (le_of_lt hlt)
      · rw [if_neg hlt] at h
        exact ih (idx + 1) b ab i a h
    · rw [if_neg hc] at h
      exact ih (idx + 1) b ab i a h

/-- Full characterisation of the best-polygon scan: a `some` result
either is the untouched accumulator (and then beats every contained
polygon of the scanned suffix), or points at a contained polygon of the
suffix whose area is minimal among the contained ones. -/
theorem bestGo_spec (r : List (ℚ × ℚ)) :
    ∀ (ps : List PolyQ) (idx : ℕ) (best : Option (ℕ × ℚ)) (i : ℕ) (a : ℚ),
      bestGo r ps idx best = some (i, a) →
      ((best = some (i, a) ∧ ∀ j, j < ps.length →
          polygon_contains_ring (ps.getD j ⟨[], []⟩).exterior r = true →
          a ≤ calculate_polygon_area (ps.getD j ⟨[], []⟩).exterior) ∨
       (∃ j, j < ps.length ∧ i = idx + j ∧
          polygon_contains_ring (ps.getD j ⟨[], []⟩).exterior r = true ∧
          a = calculate_polygon_area (ps.getD j ⟨[], []⟩).exterior ∧
          ∀ j2, j2 < ps.length →
            polygon_contains_ring (ps.getD j2 ⟨[], []⟩).exterior r = true →
            a ≤ calculate_polygon_area (ps.getD j2 ⟨[], []⟩).exterior)) := by
  intro ps
  induction ps with
  | nil =>
    intro idx best i a h
    simp only [bestGo] at h
    left
    exact ⟨h, fun j hj => by simp at hj⟩
  | cons p ps ih =>
    intro idx best i a h
    simp only [bestGo] at h
    by_cases hc : polygon_contains_ring p.exterior r = true
    · rw [if_pos hc] at h
      rcases hbest : best with _ | ⟨b, ab⟩
      · rw [hbest] at h
        simp only [updateBest] at h
        have hle := bestGo_le r ps (idx + 1) idx (calculate_polygon_area p.exterior) i a h
        rcases ih (idx + 1) _ i a h with ⟨heq, hmin⟩ | ⟨j, hj, hij, hcj, haj, hminj⟩
        · have hia : i = idx ∧ a = calculate_polygon_area p.exterior := by
            simpa using heq.symm
          right
          refine ⟨0, by simp, by omega, by simpa using hc, by simp [hia.2], ?_⟩
          intro j2 hj2 hcj2
          cases j2 with
          | zero => simp [hia.2]
          | succ j2 =>
            simp only [List.getD_cons_succ] at hcj2 ⊢
            exact hmin j2 (by simpa using hj2) hcj2
        · right
          refine ⟨j + 1, by simpa using hj, by omega, by simpa using hcj,
            by simpa using haj, ?_⟩
          intro j2 hj2 hcj2
          cases j2 with
          | zero => simpa using hle
          | succ j2 =>
            simp only [List.getD_cons_succ] at hcj2 ⊢
            exact hminj j2 (by simpa using hj2) hcj2
      · rw [hbest] at h
        simp only [updateBest] at h
        by_cases hlt : calculate_polygon_area p.exterior < ab
        · rw [if_pos hlt] at h
          have hle := bestGo_le r ps (idx + 1) idx (calculate_polygon_area p.exterior) i a h
          rcases ih (idx + 1) _ i a h with ⟨heq, hmin⟩ | ⟨j, hj, hij, hcj, haj, hminj⟩
          · have hia : i = idx ∧ a = calculate_polygon_area p.exterior := by
              simpa using heq.symm
            right
            refine ⟨0, by simp, by omega, by simpa using hc, by simp [hia.2], ?_⟩
            intro j2 hj2 hcj2
            cases j2 with
            | zero => simp [hia.2]
            | succ j2 =>
              simp only [List.getD_cons_succ] at hcj2 ⊢
              exact hmin j2 (by simpa using hj2) hcj2
          · right
            refine ⟨j + 1, by simpa using hj, by omega, by simpa using hcj,
              by simpa using haj, ?_⟩
            intro j2 hj2 hcj2
            cases j2 with
            | zero => simpa using hle
            | succ j2 =>
              simp only [List.getD_cons_succ] at hcj2 ⊢
              exact hminj j2 (by simpa using hj2) hcj2
        · rw [if_neg hlt] at h
          have hle := bestGo_le r ps (idx + 1) b ab i a h
          rcases ih (idx + 1) _ i a h with ⟨heq, hmin⟩ | ⟨j, hj, hij, hcj, haj, hminj⟩
          · left
            refine ⟨heq, ?_⟩
            intro j2 hj2 hcj2
            cases j2 with
            | zero =>
              have hab : ab = a := by simpa using congrArg (fun v => Option.map Prod.snd v) heq
              simp only [List.getD_cons_zero] at hcj2
              have : a ≤ ab := le_of_eq hab.symm
              calc a ≤ ab := this
                _ ≤ calculate_polygon_area p.exterior := not_lt.mp hlt
            | succ j2 =>
              simp only [List.getD_cons_succ] at hcj2 ⊢
              exact hmin j2 (by simpa using hj2) hcj2
          · right
            refine ⟨j + 1, by simpa using hj, by omega, by simpa using hcj,
              by simpa using haj, ?_⟩
            intro j2 hj2 hcj2
            cases j2 with
            | zero =>
              calc a ≤ ab := hle
                _ ≤ calculate_polygon_area p.exterior := not_lt.mp hlt
            | succ j2 =>
              simp only [List.getD_cons_succ] at hcj2 ⊢
              exact hminj j2 (by simpa using hj2) hcj2
    · rw [if_neg hc] at h
      rcases ih (idx + 1) best i a h with ⟨heq, hmin⟩ | ⟨j, hj, hij, hcj, haj, hminj⟩
      · left
        refine ⟨heq, ?_⟩
        intro j2 hj2 hcj2
        cases j2 with
        | zero =>
          simp only [List.getD_cons_zero] at hcj2
          exact absurd hcj2 hc
        | succ j2 =>
          simp only [List.getD_cons_succ] at hcj2 ⊢
          exact hmin j2 (by simpa using hj2) hcj2
      · right
        refine ⟨j + 1, by simpa using hj, by omega, by simpa using hcj,
          by simpa using haj, ?_⟩
        intro j2 hj2 hcj2
        cases j2 with
        | zero =>
          simp only [List.getD_cons_zero] at hcj2
          exact absurd hcj2 hc
        | succ j2 =>
          simp only [List.getD_cons_succ] at hcj2 ⊢
          exact hminj j2 (by simpa using hj2) hcj2

/-- Shared specification of `bestPolygonIdx`: a chosen index is in range,
its polygon's exterior contains the ring's representative point, and its
area is minimal among the containing polygons. -/
theorem bestPolygonIdx_spec (polys : List PolyQ) (r : List (ℚ × ℚ)) (i : ℕ)
    (hb : bestPolygonIdx polys r = some i) :
    i < polys.length ∧
    polygon_contains_ring (polys.getD i ⟨[], []⟩).exterior r = true ∧
    ∀ j, j < polys.length →
      polygon_contains_ring (polys.getD j ⟨[], []⟩).exterior r = true →
      calculate_polygon_area (polys.getD i ⟨[], []⟩).exterior ≤
        calculate_polygon_area (polys.getD j ⟨[], []⟩).exterior := by
  rw [bestPolygonIdx] at hb
  rcases hg : bestGo r polys 0 none with _ | ⟨i2, a⟩
  · rw [hg] at hb
    simp at hb
  · rw [hg] at hb
    simp only [Option.map_some'] at hb
    have hi2 : i2 = i := by simpa using hb
    rcases bestGo_spec r polys 0 none i2 a hg with ⟨heq, _⟩ | ⟨j, hj, hij, hcj, haj, hminj⟩
    · exact absurd heq (by simp)
    · have hji : i = j := by omega
      subst hji
      refine ⟨hj, hcj, ?_⟩
      intro j2 hj2 hcj2
      rw [← haj]
      exact hminj j2 hj2 hcj2

end Mimesis

/-- C7.  In the hole-assignment stage of `trace_polygons` (the loop over
`inner_rings`), a ring attached at index `i` goes to a polygon whose
exterior contains the ring's representative point (its first coordinate,
by the ray-casting point-in-polygon test) and whose exterior has minimal
shoelace area among all containing polygons; the attachment is exactly
`polygons[idx].interiors_push(ring)`. -/
theorem C7_hole_attachment (polys : List Mimesis.PolyQ) (r : List (ℚ × ℚ)) (i : ℕ)
    (hb : Mimesis.bestPolygonIdx polys r = some i) :
    i < polys.length ∧
    Mimesis.polygon_contains_ring (polys.getD i ⟨[], []⟩).exterior r = true ∧
    (∀ j, j < polys.length →
      Mimesis.polygon_contains_ring (polys.getD j ⟨[], []⟩).exterior r = true →
      Mimesis.calculate_polygon_area (polys.getD i ⟨[], []⟩).exterior ≤
        Mimesis.calculate_polygon_area (polys.getD j ⟨[], []⟩).exterior) ∧
    Mimesis.assignStep polys r =
      polys.set i (Mimesis.interiorsPush (polys.getD i ⟨[], []⟩) r) := by
  obtain ⟨hlen, hcont, hmin⟩ := Mimesis.bestPolygonIdx_spec polys r i hb
  refine ⟨hlen, hcont, hmin, ?_⟩
  rw [Mimesis.assignStep, hb]

/-- C7 (witness): two nested squares (areas 100 and 36) both contain the
representative point `(4, 4)` of the hole ring; the assignment picks
index 1, the smaller square. -/
theorem C7_witness :
    Mimesis.bestPolygonIdx
      [⟨[(0, 0), (10, 0), (10, 10), (0, 10), (0, 0)], []⟩,
       ⟨[(2, 2), (8, 2), (8, 8), (2, 8), (2, 2)], []⟩]
      [(4, 4), (5, 4), (5, 5), (4, 5), (4, 4)] = some 1 ∧
    (1 < ([⟨[(0, 0), (10, 0), (10, 10), (0, 10), (0, 0)], []⟩,
       ⟨[(2, 2), (8, 2), (8, 8), (2, 8), (2, 2)], []⟩] : List Mimesis.PolyQ).length ∧
     Mimesis.polygon_contains_ring
       (([⟨[(0, 0), (10, 0), (10, 10), (0, 10), (0, 0)], []⟩,
          ⟨[(2, 2), (8, 2), (8, 8), (2, 8), (2, 2)], []⟩] : List Mimesis.PolyQ).getD 1
           ⟨[], []⟩).exterior
       [(4, 4), (5, 4), (5, 5), (4, 5), (4, 4)] = true ∧
     (∀ j, j < ([⟨[(0, 0), (10, 0), (10, 10), (0, 10), (0, 0)], []⟩,
          ⟨[(2, 2), (8, 2), (8, 8), (2, 8), (2, 2)], []⟩] : List Mimesis.PolyQ).length →
       Mimesis.polygon_contains_ring
         (([⟨[(0, 0), (10, 0), (10, 10), (0, 10), (0, 0)], []⟩,
            ⟨[(2, 2), (8, 2), (8, 8), (2, 8), (2, 2)], []⟩] : List Mimesis.PolyQ).getD j
             ⟨[], []⟩).exterior
         [(4, 4), (5, 4), (5, 5), (4, 5), (4, 4)] = true →
       Mimesis.calculate_polygon_area
         (([⟨[(0, 0), (10, 0), (10, 10), (0, 10), (0, 0)], []⟩,
            ⟨[(2, 2), (8, 2), (8, 8), (2, 8), (2, 2)], []⟩] : List Mimesis.PolyQ).getD 1
             ⟨[], []⟩).exterior ≤
         Mimesis.calculate_polygon_area
           (([⟨[(0, 0), (10, 0), (10, 10), (0, 10), (0, 0)], []⟩,
              ⟨[(2, 2), (8, 2), (8, 8), (2, 8), (2, 2)], []⟩] : List Mimesis.PolyQ).getD j
               ⟨[], []⟩).exterior) ∧
     Mimesis.assignStep
       [⟨[(0, 0), (10, 0), (10, 10), (0, 10), (0, 0)], []⟩,
        ⟨[(2, 2), (8, 2), (8, 8), (2, 8), (2, 2)], []⟩]
       [(4, 4), (5, 4), (5, 5), (4, 5), (4, 4)] =
       ([⟨[(0, 0), (10, 0), (10, 10), (0, 10), (0, 0)], []⟩,
         ⟨[(2, 2), (8, 2), (8, 8), (2, 8), (2, 2)], []⟩] : List Mimesis.PolyQ).set 1
         (Mimesis.interiorsPush
           (([⟨[(0, 0), (10, 0), (10, 10), (0, 10), (0, 0)], []⟩,
              ⟨[(2, 2), (8, 2), (8, 8), (2, 8), (2, 2)], []⟩] : List Mimesis.PolyQ).getD 1
               ⟨[], []⟩)
           [(4, 4), (5, 4), (5, 5), (4, 5), (4, 4)])) :=
  ⟨by decide,
    C7_hole_attachment
      [⟨[(0, 0), (10, 0), (10, 10), (0, 10), (0, 0)], []⟩,
       ⟨[(2, 2), (8, 2), (8, 8), (2, 8), (2, 2)], []⟩]
      [(4, 4), (5, 4), (5, 5), (4, 5), (4, 4)] 1 (by decide)⟩

namespace Mimesis

/-- Ring closure preserves the representative (first) coordinate. -/
theorem closeRing_head (ring : List (ℚ × ℚ)) : (closeRing ring).head? = ring.head? := by
  rw [closeRing]
  cases ring with
  | nil => rfl
  | cons p rest =>
    simp only [List.head?_cons]
    by_cases hc : (p :: rest).getLast? = some p
    · rw [if_pos hc]
      rfl
    · rw [if_neg hc]
      rfl

/-- The containment test only looks at the ring's first coordinate. -/
theorem contains_congr_head (e : List (ℚ × ℚ)) (r1 r2 : List (ℚ × ℚ))
    (h : r1.head? = r2.head?) :
    polygon_contains_ring e r1 = polygon_contains_ring e r2 := by
  rw [polygon_contains_ring, polygon_contains_ring, h]

/-- Replacing entry `idx` by its `interiors_push` leaves the exterior
lists unchanged. -/
theorem set_interiorsPush_map_exterior :
    ∀ (ps : List PolyQ) (idx : ℕ) (r2 : List (ℚ × ℚ)),
      ((ps.set idx (interiorsPush (ps.getD idx ⟨[], []⟩) r2)).map PolyQ.exterior) =
        ps.map PolyQ.exterior := by
  intro ps
  induction ps with
  | nil => intro idx r2; rfl
  | cons p ps ih =>
    intro idx r2
    cases idx with
    | zero =>
      simp only [List.set_cons_zero, List.getD_cons_zero, List.map_cons]
      rfl
    | succ idx =>
      simp only [List.set_cons_succ, List.getD_cons_succ, List.map_cons, ih idx r2]

/-- One assignment step never changes the exterior lists. -/
theorem assignStep_map_exterior (ps : List PolyQ) (r2 : List (ℚ × ℚ)) :
    (assignStep ps r2).map PolyQ.exterior = ps.map PolyQ.exterior := by
  rw [assignStep]
  cases hb : bestPolygonIdx ps r2 with
  | none => rfl
  | some idx => exact set_interiorsPush_map_exterior ps idx r2

/-- One assignment step cannot introduce `closeRing r` into any interiors
list when no polygon's exterior contains `r`'s representative point. -/
theorem assignStep_keeps_not_mem (ps : List PolyQ) (r2 r : List (ℚ × ℚ))
    (hnc : ∀ p ∈ ps, polygon_contains_ring p.exterior r = false)
    (hnm : ∀ p ∈ ps, closeRing r ∉ p.interiors) :
    ∀ p ∈ assignStep ps r2, closeRing r ∉ p.interiors := by
  intro p hp
  rw [assignStep] at hp
  cases hb : bestPolygonIdx ps r2 with
  | none =>
    rw [hb] at hp
    exact hnm p hp
  | some idx =>
    rw [hb] at hp
    obtain ⟨hlen, hcont, _⟩ := bestPolygonIdx_spec ps r2 idx hb
    have hmem : ps.getD idx ⟨[], []⟩ ∈ ps := by
      rw [List.getD_eq_getElem?_getD, List.getElem?_eq_getElem hlen, Option.getD_some]
      exact List.getElem_mem hlen
    rcases List.mem_or_eq_of_mem_set hp with hmem2 | rfl
    · exact hnm p hmem2
    · intro hin
      simp only [interiorsPush, List.mem_append, List.mem_singleton] at hin
      rcases hin with hold | heq
      · exact hnm _ hmem hold
      · have hheads : r.head? = r2.head? := by
          rw [← closeRing_head r, ← closeRing_head r2, heq]
        have hcr : polygon_contains_ring (ps.getD idx ⟨[], []⟩).exterior r = true := by
          rw [contains_congr_head _ r r2 hheads]
          exact hcont
        rw [hnc _ hmem] at hcr
        exact Bool.false_ne_true hcr

/-- Invariant of the whole assignment loop: exteriors unchanged, and a
ring contained in no exterior stays out of every interiors list. -/
theorem assignInteriors_invariant (r : List (ℚ × ℚ)) (E : List (List (ℚ × ℚ)))
    (hncE : ∀ e ∈ E, polygon_contains_ring e r = false) :
    ∀ (rings : List (List (ℚ × ℚ))) (ps : List PolyQ),
      ps.map PolyQ.exterior = E →
      (∀ p ∈ ps, closeRing r ∉ p.interiors) →
      (assignInteriors ps rings).map PolyQ.exterior = E ∧
      ∀ p ∈ assignInteriors ps rings, closeRing r ∉ p.interiors := by
  intro rings
  induction rings with
  | nil => intro ps hE hnm; exact ⟨hE, hnm⟩
  | cons r2 rings ih =>
    intro ps hE hnm
    have hnc : ∀ p ∈ ps, polygon_contains_ring p.exterior r = false := by
      intro p hp
      exact hncE p.exterior (hE ▸ List.mem_map_of_mem PolyQ.exterior hp)
    have hstep1 : (assignStep ps r2).map PolyQ.exterior = E := by
      rw [assignStep_map_exterior ps r2]
      exact hE
    have hstep2 := assignStep_keeps_not_mem ps r2 r hnc hnm
    exact ih (assignStep ps r2) hstep1 hstep2

end Mimesis

/-- C10.  In `trace_polygons`, an interior ring whose representative
point lies in no traced polygon's exterior is silently dropped by the
assignment loop: the polygon list keeps its exteriors, the ring (as
`interiors_push` would store it, closed) appears in no polygon's
interiors, and nothing else is returned or reported. -/
theorem C10_uncontained_ring_dropped (polys : List Mimesis.PolyQ)
    (rings : List (List (ℚ × ℚ))) (r : List (ℚ × ℚ))
    (hnc : ∀ p ∈ polys, Mimesis.polygon_contains_ring p.exterior r = false)
    (hnm : ∀ p ∈ polys, Mimesis.closeRing r ∉ p.interiors) :
    (Mimesis.assignInteriors polys rings).map Mimesis.PolyQ.exterior =
      polys.map Mimesis.PolyQ.exterior ∧
    ∀ p ∈ Mimesis.assignInteriors polys rings, Mimesis.closeRing r ∉ p.interiors := by
  refine Mimesis.assignInteriors_invariant r (polys.map Mimesis.PolyQ.exterior)
    ?_ rings polys rfl hnm
  intro e he
  obtain ⟨p, hp, rfl⟩ := List.mem_map.mp he
  exact hnc p hp

/-- C10 (witness): a ring far outside the single square polygon is not
attached; the polygon list comes back with its exterior intact and an
empty interiors list. -/
theorem C10_witness :
    (∀ p ∈ ([⟨[(0, 0), (10, 0), (10, 10), (0, 10), (0, 0)], []⟩] : List Mimesis.PolyQ),
      Mimesis.polygon_contains_ring p.exterior
        [(20, 20), (21, 20), (21, 21), (20, 21), (20, 20)] = false) ∧
    (∀ p ∈ ([⟨[(0, 0), (10, 0), (10, 10), (0, 10), (0, 0)], []⟩] : List Mimesis.PolyQ),
      Mimesis.closeRing [(20, 20), (21, 20), (21, 21), (20, 21), (20, 20)] ∉ p.interiors) ∧
    ((Mimesis.assignInteriors
        [⟨[(0, 0), (10, 0), (10, 10), (0, 10), (0, 0)], []⟩]
        [[(20, 20), (21, 20), (21, 21), (20, 21), (20, 20)]]).map Mimesis.PolyQ.exterior =
      ([⟨[(0, 0), (10, 0), (10, 10), (0, 10), (0, 0)], []⟩] : List Mimesis.PolyQ).map
        Mimesis.PolyQ.exterior ∧
     ∀ p ∈ Mimesis.assignInteriors
        [⟨[(0, 0), (10, 0), (10, 10), (0, 10), (0, 0)], []⟩]
        [[(20, 20), (21, 20), (21, 21), (20, 21), (20, 20)]],
      Mimesis.closeRing [(20, 20), (21, 20), (21, 21), (20, 21), (20, 20)] ∉ p.interiors) :=
  ⟨by decide, by decide,
    C10_uncontained_ring_dropped
      [⟨[(0, 0), (10, 0), (10, 10), (0, 10), (0, 0)], []⟩]
      [[(20, 20), (21, 20), (21, 21), (20, 21), (20, 20)]]
      [(20, 20), (21, 20), (21, 21), (20, 21), (20, 20)]
      (by decide) (by decide)⟩

/-! Section: Claim C8 -/

namespace Mimesis

/-- An all-`false` buffer reads `false` at every index. -/
theorem getD_false_of_all_false {l : List Bool} (h : ∀ b ∈ l, b = false) (n : ℕ) :
    l.getD n false = false := by
  rw [List.getD_eq_getElem?_getD]
  cases hg : l[n]? with
  | none => rfl
  | some b =>
    have hb : b ∈ l := by
      have := List.getElem?_eq_some.mp hg
      obtain ⟨hlt, hbe⟩ := this
      exact hbe ▸ List.getElem_mem hlt
    simpa using h b hb

/-- Reading inside the range of a mapped `List.range` is the function
value. -/
theorem getD_map_range {α : Type} (f : ℕ → α) (n y : ℕ) (d : α) (hy : y < n) :
    ((List.range n).map f).getD y d = f y := by
  rw [List.getD_eq_getElem?_getD, List.getElem?_map, List.getElem?_range hy,
      Option.map_some', Option.getD_some]

/-- Reading past the end of a mapped `List.range` is the default. -/
theorem getD_map_range_ge {α : Type} (f : ℕ → α) (n y : ℕ) (d : α) (hy : n ≤ y) :
    ((List.range n).map f).getD y d = d := by
  rw [List.getD_eq_getElem?_getD,
      List.getElem?_eq_none (by simp only [List.length_map, List.length_range]; exact hy),
      Option.getD_none]

/-- On an all-background mask, every contour-grid entry is `0` (border or
out of range) or `-1` (interior cell). -/
theorem initContours_all_bg (img : BinaryImage) (h : ∀ b ∈ img.buffer, b = false)
    (y x : ℕ) :
    gridGet (initContours img) y x = 0 ∨ gridGet (initContours img) y x = -1 := by
  rw [gridGet, initContours]
  by_cases hy : y < img.height + 2
  · rw [getD_map_range _ _ _ _ hy]
    by_cases hx : x < img.width + 2
    · rw [getD_map_range _ _ _ _ hx]
      by_cases hin : 1 ≤ y ∧ y ≤ img.height ∧ 1 ≤ x ∧ x ≤ img.width
      · rw [if_pos hin, BinaryImage.get_pixel, getD_false_of_all_false h]
        right
        rfl
      · rw [if_neg hin]
        left
        rfl
    · rw [getD_map_range_ge _ _ _ _ (le_of_not_lt hx)]
      left
      rfl
  · rw [getD_map_range_ge _ _ _ _ (le_of_not_lt hy)]
    left
    rfl

/-- The counter update is a no-op on a cell whose value is `0` or `-1`. -/
theorem afterCounters_neutral (st : ScanState) (y x : ℕ) (ol hl : ℤ)
    (hv : gridGet st.grid y x = 0 ∨ gridGet st.grid y x = -1) :
    afterCounters st y x ol hl = (st, ol, hl) := by
  rw [afterCounters]
  rcases hv with h | h <;> rw [h] <;> norm_num

/-- A scan cell fires nothing and changes nothing when the grid holds
only `0`/`-1` values and the counters are equal. -/
theorem scanCell_neutral (y x : ℕ) (st : ScanState) (ol hl : ℤ)
    (hgrid : ∀ y2 x2, gridGet st.grid y2 x2 = 0 ∨ gridGet st.grid y2 x2 = -1)
    (hol : ol = hl) :
    scanCell y x (st, ol, hl) = (st, ol, hl) := by
  rw [scanCell]
  have h1 : ¬(ol = hl ∧ gridGet st.grid y x = 1) := by
    rcases hgrid y x with h | h <;> simp [h]
  have h2 : ¬(ol > hl ∧ gridGet st.grid y x = -1) := by
    simp [hol]
  simp only [if_neg h1, if_neg h2]
  exact afterCounters_neutral st y x ol hl (hgrid y x)

/-- Folding neutral scan cells over any cell list is the identity. -/
theorem foldCells_neutral (y : ℕ) (xs : List ℕ) (st : ScanState) (ol hl : ℤ)
    (hgrid : ∀ y2 x2, gridGet st.grid y2 x2 = 0 ∨ gridGet st.grid y2 x2 = -1)
    (hol : ol = hl) :
    xs.foldl (fun s x => scanCell y x s) (st, ol, hl) = (st, ol, hl) := by
  induction xs with
  | nil => rfl
  | cons x xs ih =>
    rw [List.foldl_cons, scanCell_neutral y x st ol hl hgrid hol, ih]

/-- A whole scan row is the identity on such a state. -/
theorem scanRow_neutral (img : BinaryImage) (st : ScanState) (y : ℕ)
    (hgrid : ∀ y2 x2, gridGet st.grid y2 x2 = 0 ∨ gridGet st.grid y2 x2 = -1) :
    scanRow img st y = st := by
  rw [scanRow, foldCells_neutral y _ st 0 0 hgrid rfl]

/-- All scan rows together are the identity on such a state. -/
theorem foldRows_neutral (img : BinaryImage) (ys : List ℕ) (st : ScanState)
    (hgrid : ∀ y2 x2, gridGet st.grid y2 x2 = 0 ∨ gridGet st.grid y2 x2 = -1) :
    ys.foldl (scanRow img) st = st := by
  induction ys with
  | nil => rfl
  | cons y ys ih =>
    rw [List.foldl_cons, scanRow_neutral img st y hgrid, ih]

end Mimesis

/-- C8.  `trace_polygons` is total and error-free by its very type (it
returns `Vec<Polygon>`, with no `Result` channel, and the embedding
returns a plain list for every mask), and on a mask whose pixels are all
background the raster scan fires no trace at all — the init grid holds
only `-1` and border `0` entries, the `ol`/`hl` counters never move, both
trigger conditions stay false — so the returned list is empty. -/
theorem C8_trace_polygons_all_bg (img : Mimesis.BinaryImage)
    (h : ∀ b ∈ img.buffer, b = false) :
    Mimesis.trace_polygons img = [] := by
  rw [Mimesis.trace_polygons]
  rw [Mimesis.foldRows_neutral img _ _ (Mimesis.initContours_all_bg img h)]
  rfl

/-- C8 (witness): the all-background 8×8 mask yields the empty polygon
list. -/
theorem C8_witness :
    (∀ b ∈ List.replicate 64 false, b = false) ∧
    Mimesis.trace_polygons ⟨8, 8, List.replicate 64 false⟩ = [] :=
  ⟨fun _ hb => List.eq_of_mem_replicate hb,
    C8_trace_polygons_all_bg ⟨8, 8, List.replicate 64 false⟩
      (fun _ hb => List.eq_of_mem_replicate hb)⟩
